import Mathlib

/-!
# Parallel-File-Encryptor: a verification development for `main.go`

The program encrypts or decrypts every file of a directory with AES-256-GCM.
This file embeds `main.go` in Lean:

* byte buffers are lists of natural numbers (a byte is a number below 256);
* the library primitives the program calls (`aes.NewCipher`, `cipher.NewGCM`,
  `gcm.Seal`, `gcm.Open`, `hex.DecodeString`, `filepath.Base`, `filepath.Join`,
  `strings.TrimSuffix`) are modelled as executable functions following their
  Go documentation (FIPS-197 and NIST SP 800-38D for the cipher);
* the file system, the random source and standard output are an explicit
  `World` that every effectful function threads through: a file is identified
  by its path, a write may fail before or after the file is opened, and the
  random source is a stream of bytes;
* `encryptFile`, `decryptFile`, `worker` and `main` follow `main.go` statement
  by statement; the worker pool is modelled by its sequential schedule (one
  worker that receives the jobs in the order they were queued).
-/

namespace PFE

/-- A byte buffer (`[]byte`): each entry stands for a byte, a number below 256. -/
abbrev Bytes := List Nat

/-! ## `crypto/aes`: the AES block cipher (FIPS-197) -/

namespace aes

/-- The AES substitution table. -/
def sbox : List Nat :=
  [0x63, 0x7c, 0x77, 0x7b, 0xf2, 0x6b, 0x6f, 0xc5, 0x30, 0x01, 0x67, 0x2b, 0xfe, 0xd7, 0xab, 0x76,
   0xca, 0x82, 0xc9, 0x7d, 0xfa, 0x59, 0x47, 0xf0, 0xad, 0xd4, 0xa2, 0xaf, 0x9c, 0xa4, 0x72, 0xc0,
   0xb7, 0xfd, 0x93, 0x26, 0x36, 0x3f, 0xf7, 0xcc, 0x34, 0xa5, 0xe5, 0xf1, 0x71, 0xd8, 0x31, 0x15,
   0x04, 0xc7, 0x23, 0xc3, 0x18, 0x96, 0x05, 0x9a, 0x07, 0x12, 0x80, 0xe2, 0xeb, 0x27, 0xb2, 0x75,
   0x09, 0x83, 0x2c, 0x1a, 0x1b, 0x6e, 0x5a, 0xa0, 0x52, 0x3b, 0xd6, 0xb3, 0x29, 0xe3, 0x2f, 0x84,
   0x53, 0xd1, 0x00, 0xed, 0x20, 0xfc, 0xb1, 0x5b, 0x6a, 0xcb, 0xbe, 0x39, 0x4a, 0x4c, 0x58, 0xcf,
   0xd0, 0xef, 0xaa, 0xfb, 0x43, 0x4d, 0x33, 0x85, 0x45, 0xf9, 0x02, 0x7f, 0x50, 0x3c, 0x9f, 0xa8,
   0x51, 0xa3, 0x40, 0x8f, 0x92, 0x9d, 0x38, 0xf5, 0xbc, 0xb6, 0xda, 0x21, 0x10, 0xff, 0xf3, 0xd2,
   0xcd, 0x0c, 0x13, 0xec, 0x5f, 0x97, 0x44, 0x17, 0xc4, 0xa7, 0x7e, 0x3d, 0x64, 0x5d, 0x19, 0x73,
   0x60, 0x81, 0x4f, 0xdc, 0x22, 0x2a, 0x90, 0x88, 0x46, 0xee, 0xb8, 0x14, 0xde, 0x5e, 0x0b, 0xdb,
   0xe0, 0x32, 0x3a, 0x0a, 0x49, 0x06, 0x24, 0x5c, 0xc2, 0xd3, 0xac, 0x62, 0x91, 0x95, 0xe4, 0x79,
   0xe7, 0xc8, 0x37, 0x6d, 0x8d, 0xd5, 0x4e, 0xa9, 0x6c, 0x56, 0xf4, 0xea, 0x65, 0x7a, 0xae, 0x08,
   0xba, 0x78, 0x25, 0x2e, 0x1c, 0xa6, 0xb4, 0xc6, 0xe8, 0xdd, 0x74, 0x1f, 0x4b, 0xbd, 0x8b, 0x8a,
   0x70, 0x3e, 0xb5, 0x66, 0x48, 0x03, 0xf6, 0x0e, 0x61, 0x35, 0x57, 0xb9, 0x86, 0xc1, 0x1d, 0x9e,
   0xe1, 0xf8, 0x98, 0x11, 0x69, 0xd9, 0x8e, 0x94, 0x9b, 0x1e, 0x87, 0xe9, 0xce, 0x55, 0x28, 0xdf,
   0x8c, 0xa1, 0x89, 0x0d, 0xbf, 0xe6, 0x42, 0x68, 0x41, 0x99, 0x2d, 0x0f, 0xb0, 0x54, 0xbb, 0x16]

/-- S-box lookup of one byte. -/
def subByte (b : Nat) : Nat := sbox.getD (b % 256) 0

/-- Multiplication by `x` in GF(2^8) modulo `x^8 + x^4 + x^3 + x + 1`. -/
def xtime (b : Nat) : Nat :=
  if b % 256 < 128 then 2 * (b % 256) else ((2 * (b % 256)) % 256) ^^^ 0x1b

/-- Round constants of the key schedule: `rcon j` is `x^(j-1)`. -/
def rcon : Nat → Nat
  | 0 => 0
  | 1 => 1
  | j + 1 => xtime (rcon j)

/-- Bytewise exclusive or of two words (or blocks) of `n` bytes. -/
def xorN (n : Nat) (a b : Bytes) : Bytes :=
  (List.range n).map fun i => a.getD i 0 ^^^ b.getD i 0

/-- The `RotWord` step of the key schedule. -/
def rotWord (w : Bytes) : Bytes := [w.getD 1 0, w.getD 2 0, w.getD 3 0, w.getD 0 0]

/-- The `SubWord` step of the key schedule. -/
def subWord (w : Bytes) : Bytes := w.map subByte

/-- Key expansion: append `count` further words to the schedule `w`, where the
key has `nk` words. -/
def expandKeyAux (nk : Nat) : Nat → List Bytes → List Bytes
  | 0, w => w
  | count + 1, w =>
    let i := w.length
    let prev := w.getD (i - 1) []
    let temp :=
      if i % nk = 0 then xorN 4 (subWord (rotWord prev)) [rcon (i / nk), 0, 0, 0]
      else if 6 < nk ∧ i % nk = 4 then subWord prev
      else prev
    expandKeyAux nk count (w ++ [xorN 4 (w.getD (i - nk) []) temp])

/-- The words of the key itself: the first `nk` words of the schedule. -/
def keyWords (key : Bytes) : List Bytes :=
  (List.range (key.length / 4)).map fun i => (key.drop (4 * i)).take 4

/-- The full key schedule, `4 * (Nr + 1)` words with `Nr = Nk + 6` rounds. -/
def expandKey (key : Bytes) : List Bytes :=
  let nk := key.length / 4
  expandKeyAux nk (4 * (nk + 7) - nk) (keyWords key)

/-- A `cipher.Block` made by `aes.NewCipher`: the expanded key. -/
structure Block where
  /-- The key schedule, one word of four bytes per entry. -/
  enc : List Bytes

/-- The block size of AES in bytes (`aes.BlockSize`). -/
def BlockSize : Nat := 16

/-- Method `BlockSize` of an AES block. -/
def Block.BlockSize (_ : Block) : Nat := aes.BlockSize

/-- The sixteen bytes of round key `r`. -/
def Block.roundKey (c : Block) (r : Nat) : Bytes :=
  c.enc.getD (4 * r) [] ++ c.enc.getD (4 * r + 1) [] ++ c.enc.getD (4 * r + 2) [] ++
    c.enc.getD (4 * r + 3) []

/-- Number of rounds: the schedule has `4 * (Nr + 1)` words. -/
def Block.rounds (c : Block) : Nat := c.enc.length / 4 - 1

/-- The `SubBytes` transformation. -/
def subBytes (s : Bytes) : Bytes := s.map subByte

/-- The `ShiftRows` transformation; byte `r + 4 * c` is row `r`, column `c`. -/
def shiftRows (s : Bytes) : Bytes :=
  (List.range 16).map fun i => s.getD (i % 4 + 4 * ((i / 4 + i % 4) % 4)) 0

/-- One column of `MixColumns`. -/
def mixColumn (a0 a1 a2 a3 : Nat) : Bytes :=
  [xtime a0 ^^^ (xtime a1 ^^^ a1) ^^^ a2 ^^^ a3,
   a0 ^^^ xtime a1 ^^^ (xtime a2 ^^^ a2) ^^^ a3,
   a0 ^^^ a1 ^^^ xtime a2 ^^^ (xtime a3 ^^^ a3),
   (xtime a0 ^^^ a0) ^^^ a1 ^^^ a2 ^^^ xtime a3]

/-- The `MixColumns` transformation. -/
def mixColumns (s : Bytes) : Bytes :=
  (List.range 4).flatMap fun c =>
    mixColumn (s.getD (4 * c) 0) (s.getD (4 * c + 1) 0) (s.getD (4 * c + 2) 0)
      (s.getD (4 * c + 3) 0)

/-- The inner rounds `r, r + 1, ...` (there are `n` of them). -/
def encryptRounds (c : Block) : Nat → Nat → Bytes → Bytes
  | 0, _, s => s
  | n + 1, r, s =>
    encryptRounds c n (r + 1) (xorN 16 (mixColumns (shiftRows (subBytes s))) (c.roundKey r))

/-- Method `Encrypt` of an AES block: encrypt one block of sixteen bytes. -/
def Block.Encrypt (c : Block) (src : Bytes) : Bytes :=
  let nr := c.rounds
  let s := encryptRounds c (nr - 1) 1 (xorN 16 src (c.roundKey 0))
  xorN 16 (shiftRows (subBytes s)) (c.roundKey nr)

/-- The text of `aes.KeySizeError(k)`. -/
def KeySizeError (k : Nat) : String := "crypto/aes: invalid key size " ++ toString k

/-- Go `aes.NewCipher`: the key must have 16, 24 or 32 bytes. -/
def NewCipher (key : Bytes) : Except String Block :=
  if key.length = 16 ∨ key.length = 24 ∨ key.length = 32 then
    .ok { enc := expandKey key }
  else
    .error (KeySizeError key.length)

end aes

/-! ## `crypto/cipher`: Galois/Counter mode (NIST SP 800-38D)

The program uses the standard parameters only: a nonce of 12 bytes and a tag
of 16 bytes.  The length limit of GCM (2^36 - 32 bytes of plaintext, beyond
which `Seal` panics) is not modelled: buffers are taken below it. -/

namespace cipher

/-- A block of sixteen bytes read as a big-endian number of 128 bits. -/
def fromBytes (b : Bytes) : Nat := b.foldl (fun acc x => acc * 256 + x % 256) 0

/-- The `n` big-endian bytes of a number. -/
def toBytes (n : Nat) (v : Nat) : Bytes :=
  (List.range n).map fun i => (v >>> (8 * (n - 1 - i))) % 256

/-- The reduction constant of GF(2^128): `11100001` followed by 120 zero bits. -/
def gcmR : Nat := 0xe1 <<< 120

/-- Multiplication in GF(2^128), by the shift-and-add loop of SP 800-38D;
`i` counts the bits of `x` still to be read, from the most significant. -/
def gfmulAux (x : Nat) : Nat → Nat → Nat → Nat
  | 0, z, _ => z
  | i + 1, z, v =>
    let z1 := if x.testBit i then z ^^^ v else z
    let v1 := if v.testBit 0 then (v >>> 1) ^^^ gcmR else v >>> 1
    gfmulAux x i z1 v1

/-- The product `x • y` in GF(2^128). -/
def gfmul (x y : Nat) : Nat := gfmulAux x 128 0 y

/-- Block `i` of a buffer, padded with zero bytes, as a number. -/
def blockAt (b : Bytes) (i : Nat) : Nat :=
  fromBytes ((List.range 16).map fun j => b.getD (16 * i + j) 0)

/-- The blocks of a buffer, the last one padded with zero bytes. -/
def blocksOf (b : Bytes) : List Nat :=
  (List.range ((b.length + 15) / 16)).map (blockAt b)

/-- The function `GHASH_H` over a list of blocks. -/
def ghash (h : Nat) (blocks : List Nat) : Nat :=
  blocks.foldl (fun y x => gfmul (y ^^^ x) h) 0

/-- An AEAD made by `cipher.NewGCM`. -/
structure GCM where
  /-- The underlying block cipher. -/
  cipher : aes.Block

/-- The standard nonce size (`gcmStandardNonceSize`). -/
def gcmStandardNonceSize : Nat := 12

/-- The tag size (`gcmTagSize`). -/
def gcmTagSize : Nat := 16

/-- Go `cipher.NewGCM`: requires a block cipher with blocks of 128 bits. -/
def NewGCM (b : aes.Block) : Except String GCM :=
  if b.BlockSize ≠ 16 then .error "cipher: NewGCM requires 128-bit block cipher"
  else .ok { cipher := b }

/-- Method `NonceSize`. -/
def GCM.NonceSize (_ : GCM) : Nat := gcmStandardNonceSize

/-- Method `Overhead`. -/
def GCM.Overhead (_ : GCM) : Nat := gcmTagSize

/-- Counter block number `ctr` for a nonce of 12 bytes: the nonce followed by
the counter as 32 bits, big-endian, wrapping. -/
def counterBlock (nonce : Bytes) (ctr : Nat) : Bytes := nonce ++ toBytes 4 (ctr % 2 ^ 32)

/-- Byte `j` of the key stream: the data blocks use the counters 2, 3, ... -/
def GCM.keyStream (g : GCM) (nonce : Bytes) (j : Nat) : Nat :=
  (g.cipher.Encrypt (counterBlock nonce (2 + j / 16))).getD (j % 16) 0

/-- Exclusive or of a buffer with a key stream, starting at byte `off`. -/
def xorStream (ks : Nat → Nat) : Nat → Bytes → Bytes
  | _, [] => []
  | off, b :: bs => (b ^^^ ks off) :: xorStream ks (off + 1) bs

/-- Counter mode over a whole buffer. -/
def GCM.counterCrypt (g : GCM) (nonce : Bytes) (src : Bytes) : Bytes :=
  xorStream (g.keyStream nonce) 0 src

/-- The authentication tag of a ciphertext and its additional data. -/
def GCM.auth (g : GCM) (nonce ciphertext data : Bytes) : Bytes :=
  let h := fromBytes (g.cipher.Encrypt (List.replicate 16 0))
  let lens := fromBytes (toBytes 8 (data.length * 8) ++ toBytes 8 (ciphertext.length * 8))
  let s := ghash h (blocksOf data ++ blocksOf ciphertext ++ [lens])
  toBytes 16 (s ^^^ fromBytes (g.cipher.Encrypt (counterBlock nonce 1)))

/-- The error of a failed `Open` (`errOpen`). -/
def errOpen : String := "cipher: message authentication failed"

/-- Method `Seal`: append to `dst` the ciphertext of `plaintext` followed by
its tag.  The nonce has `NonceSize` bytes. -/
def GCM.Seal (g : GCM) (dst nonce plaintext data : Bytes) : Bytes :=
  let ct := g.counterCrypt nonce plaintext
  dst ++ ct ++ g.auth nonce ct data

/-- Method `Open`: check the tag that ends `ciphertext`, and only then append
the plaintext to `dst`. -/
def GCM.Open (g : GCM) (dst nonce ciphertext data : Bytes) : Except String Bytes :=
  if ciphertext.length < gcmTagSize then .error errOpen
  else
    let tag := ciphertext.drop (ciphertext.length - gcmTagSize)
    let ct := ciphertext.take (ciphertext.length - gcmTagSize)
    if g.auth nonce ct data ≠ tag then .error errOpen
    else .ok (dst ++ g.counterCrypt nonce ct)

end cipher

/-! ## `encoding/hex` -/

namespace hex

/-- The errors of `hex.DecodeString`: `InvalidByteError` and `ErrLength`. -/
inductive Error where
  | InvalidByte (c : Char)
  | Length
  deriving DecidableEq, Repr

/-- The value of a hexadecimal digit (`reverseHexTable`), in either case. -/
def fromHexChar (c : Char) : Option Nat :=
  if '0' ≤ c ∧ c ≤ '9' then some (c.toNat - '0'.toNat)
  else if 'a' ≤ c ∧ c ≤ 'f' then some (c.toNat - 'a'.toNat + 10)
  else if 'A' ≤ c ∧ c ≤ 'F' then some (c.toNat - 'A'.toNat + 10)
  else none

/-- Go `hex.Decode` on the characters of the source: the bytes decoded before
the first error, and that error. -/
def decodeChars : List Char → Bytes × Option Error
  | [] => ([], none)
  | [p] => ([], if fromHexChar p = none then some (.InvalidByte p) else some .Length)
  | p :: q :: rest =>
    match fromHexChar p, fromHexChar q with
    | none, _ => ([], some (.InvalidByte p))
    | some _, none => ([], some (.InvalidByte q))
    | some a, some b =>
      let r := decodeChars rest
      (((a <<< 4) ||| b) :: r.1, r.2)

/-- Go `hex.DecodeString`. -/
def DecodeString (s : String) : Bytes × Option Error := decodeChars s.data

end hex

/-! ## `strings` and `path/filepath` (Unix) -/

namespace strings

/-- Go `strings.HasSuffix`. -/
def HasSuffix (s suffix : String) : Bool :=
  decide (suffix.data.length ≤ s.data.length ∧
    s.data.drop (s.data.length - suffix.data.length) = suffix.data)

/-- Go `strings.TrimSuffix`: `s` without the trailing `suffix`, or `s` itself
when it does not end with `suffix`. -/
def TrimSuffix (s suffix : String) : String :=
  if HasSuffix s suffix then ⟨s.data.take (s.data.length - suffix.data.length)⟩ else s

end strings

namespace filepath

/-- The path separator. -/
def Separator : Char := '/'

/-- The elements of a path: the pieces between separators. -/
def splitSlash : List Char → List (List Char)
  | [] => [[]]
  | c :: cs =>
    if c = Separator then [] :: splitSlash cs
    else
      match splitSlash cs with
      | [] => [[c]]
      | h :: t => (c :: h) :: t

/-- The backtracking loop of `Clean` on a `..` element: starting from index
`w`, move left while `w > dotdot` and the byte at `w` is not a separator. -/
def backtrack (out : List Char) (dotdot : Nat) : Nat → Nat
  | 0 => 0
  | w + 1 =>
    if dotdot < w + 1 ∧ out.getD (w + 1) Separator ≠ Separator then backtrack out dotdot w
    else w + 1

/-- One element of the path in the loop of `Clean`; the state is the output
buffer and the index `dotdot` where backtracking must stop. -/
def cleanStep (rooted : Bool) (st : List Char × Nat) (e : List Char) : List Char × Nat :=
  if e = [] then st
  else if e = ['.'] then st
  else if e = ['.', '.'] then
    if st.2 < st.1.length then
      (st.1.take (backtrack st.1 st.2 (st.1.length - 1)), st.2)
    else if rooted = false then
      let out := (if 0 < st.1.length then st.1 ++ [Separator] else st.1) ++ ['.', '.']
      (out, out.length)
    else st
  else
    let out :=
      if (rooted = true ∧ st.1.length ≠ 1) ∨ (rooted = false ∧ st.1.length ≠ 0) then
        st.1 ++ [Separator]
      else st.1
    (out ++ e, st.2)

/-- Go `filepath.Clean` on the characters of a path: empty and `.` elements
are dropped, a `..` element removes the element before it (or is dropped at
the root, or kept at the start of a relative path), and the empty result is
written `.`. -/
def cleanChars (path : List Char) : List Char :=
  if path = [] then ['.']
  else
    let rooted := decide (path.head? = some Separator)
    let start : List Char × Nat := if rooted then ([Separator], 1) else ([], 0)
    let out := ((splitSlash path).foldl (cleanStep rooted) start).1
    if out.length = 0 then ['.'] else out

/-- Go `filepath.Clean`. -/
def Clean (path : String) : String := ⟨cleanChars path.data⟩

/-- Go `filepath.Base` on the characters of a path. -/
def baseChars (path : List Char) : List Char :=
  if path = [] then ['.']
  else
    let stripped := path.reverse.dropWhile (fun c => c = Separator)
    let last := (stripped.takeWhile (fun c => c ≠ Separator)).reverse
    if last = [] then [Separator] else last

/-- Go `filepath.Base`: the last element of a path. -/
def Base (path : String) : String := ⟨baseChars path.data⟩

/-- Go `filepath.Join`: the elements from the first non-empty one on, joined
with separators and cleaned. -/
def Join : List String → String
  | [] => ""
  | e :: rest => if e ≠ "" then Clean (String.intercalate "/" (e :: rest)) else Join rest

end filepath

/-! ## The world: file system, random source, standard output -/

/-- An observable action of the program on its environment. -/
inductive Event where
  | readFile (name : String)
  | writeFile (name : String) (data : Bytes)
  | glob (pattern : String)
  | readRandom (n : Nat)
  | stdout (text : String)
  deriving DecidableEq, Repr

/-- The environment of a run.  A file is identified by its path.  A call of
`os.WriteFile` opens the file (creating or truncating it) and then writes: it
completes, or it fails at the opening and leaves the file system as it was,
or it fails after the opening and leaves the file with the bytes written
until then. -/
structure World where
  /-- The content of each regular file that can be read; `none` for the rest. -/
  files : String → Option Bytes
  /-- Whether a call of `os.WriteFile` for a path completes. -/
  writable : String → Bool
  /-- For a path where `os.WriteFile` does not complete: `none` when the file
  cannot be opened; `some k` when it is opened, so created or truncated, and
  the write stops after `k` bytes. -/
  shortWrite : String → Option Nat
  /-- What `filepath.Glob` returns for a pattern. -/
  listing : String → Except String (List String)
  /-- The bytes the random source will deliver. -/
  entropy : Bytes
  /-- The actions performed so far, oldest first. -/
  trace : List Event

/-- Record an action. -/
def World.log (w : World) (e : Event) : World := { w with trace := w.trace ++ [e] }

/-- Go `fmt.Print`: write a text to standard output. -/
def World.print (w : World) (text : String) : World := w.log (.stdout text)

namespace os

/-- Go `os.ReadFile`. -/
def ReadFile (name : String) (w : World) : Except String Bytes × World :=
  match w.files name with
  | some data => (.ok data, w.log (.readFile name))
  | none => (.error ("open " ++ name ++ ": no such file or directory"), w.log (.readFile name))

/-- Go `os.WriteFile`: open the file with `O_WRONLY|O_CREATE|O_TRUNC`, write
the buffer and close.  A failure at the opening changes nothing; a failure
after it leaves the file created or truncated, with the bytes written so
far. -/
def WriteFile (name : String) (data : Bytes) (w : World) : Option String × World :=
  if w.writable name then
    (none, { w.log (.writeFile name data) with
      files := fun p => if p = name then some data else w.files p })
  else
    match w.shortWrite name with
    | none => (some ("open " ++ name ++ ": permission denied"), w.log (.writeFile name data))
    | some k =>
      (some ("write " ++ name ++ ": no space left on device"),
        { w.log (.writeFile name data) with
          files := fun p => if p = name then some (data.take k) else w.files p })

end os

namespace filepath

/-- Go `filepath.Glob`, answered by the environment. -/
def Glob (pattern : String) (w : World) : Except String (List String) × World :=
  (w.listing pattern, w.log (.glob pattern))

end filepath

namespace rand

/-- Go `io.ReadFull(rand.Reader, buf)` for a buffer of `n` bytes. -/
def ReadFull (n : Nat) (w : World) : Except String Bytes × World :=
  if n ≤ w.entropy.length then
    (.ok (w.entropy.take n), { w.log (.readRandom n) with entropy := w.entropy.drop n })
  else
    (.error (if w.entropy = [] then "EOF" else "unexpected EOF"),
      { w.log (.readRandom n) with entropy := [] })

end rand

/-! ## The program -/

set_option linter.unusedVariables false

/-- The errors `main.go` builds with `fmt.Errorf`, one constructor per call. -/
inductive Err where
  | readFile (filename cause : String)
  | createCipher (filename cause : String)
  | createGCM (filename cause : String)
  | nonce (filename cause : String)
  | writeEncrypted (outputPath cause : String)
  | tooShort (filename : String)
  | decrypt (filename cause : String)
  | writeDecrypted (outputPath cause : String)
  | invalidMode (mode : String)
  deriving DecidableEq, Repr

/-- The text of an error (method `Error`). -/
def Err.Error : Err → String
  | .readFile f c => "error reading file " ++ f ++ ": " ++ c
  | .createCipher f c => "error creating cipher for " ++ f ++ ": " ++ c
  | .createGCM f c => "error creating GCM for " ++ f ++ ": " ++ c
  | .nonce f c => "error generating nonce for " ++ f ++ ": " ++ c
  | .writeEncrypted p c => "error writing encrypted file " ++ p ++ ": " ++ c
  | .tooShort f => "ciphertext too short in file " ++ f
  | .decrypt f c => "error decrypting file " ++ f ++ ": " ++ c
  | .writeDecrypted p c => "error writing decrypted file " ++ p ++ ": " ++ c
  | .invalidMode m => "invalid mode: " ++ m

/-- The output path of `encryptFile` (line 107). -/
def encryptOutputPath (outputDir filename : String) : String :=
  filepath.Join [outputDir, filepath.Base filename ++ ".enc"]

/-- The output path of `decryptFile` (line 144). -/
def decryptOutputPath (outputDir filename : String) : String :=
  filepath.Join [outputDir, strings.TrimSuffix (filepath.Base filename) ".enc"]

/-- Function `encryptFile` of `main.go`; the result is the returned error
(`none` for `nil`) and the world after the call. -/
def encryptFile (filename : String) (key : Bytes) (inputDir outputDir : String) (w : World) :
    Option Err × World :=
  match os.ReadFile filename w with
  | (.error err, w1) => (some (.readFile filename err), w1)
  | (.ok plaintext, w1) =>
    match aes.NewCipher key with
    | .error err => (some (.createCipher filename err), w1)
    | .ok block =>
      match cipher.NewGCM block with
      | .error err => (some (.createGCM filename err), w1)
      | .ok gcm =>
        match rand.ReadFull gcm.NonceSize w1 with
        | (.error err, w2) => (some (.nonce filename err), w2)
        | (.ok nonce, w2) =>
          let ciphertext := gcm.Seal nonce nonce plaintext []
          let outputPath := encryptOutputPath outputDir filename
          match os.WriteFile outputPath ciphertext w2 with
          | (some err, w3) => (some (.writeEncrypted outputPath err), w3)
          | (none, w3) =>
            (none, w3.print ("Encrypted " ++ filename ++ " -> " ++ outputPath ++ "\n"))

/-- Function `decryptFile` of `main.go`. -/
def decryptFile (filename : String) (key : Bytes) (inputDir outputDir : String) (w : World) :
    Option Err × World :=
  match os.ReadFile filename w with
  | (.error err, w1) => (some (.readFile filename err), w1)
  | (.ok ciphertext, w1) =>
    match aes.NewCipher key with
    | .error err => (some (.createCipher filename err), w1)
    | .ok block =>
      match cipher.NewGCM block with
      | .error err => (some (.createGCM filename err), w1)
      | .ok gcm =>
        let nonceSize := gcm.NonceSize
        if ciphertext.length < nonceSize then (some (.tooShort filename), w1)
        else
          match gcm.Open [] (ciphertext.take nonceSize) (ciphertext.drop nonceSize) [] with
          | .error err => (some (.decrypt filename err), w1)
          | .ok plaintext =>
            let outputPath := decryptOutputPath outputDir filename
            match os.WriteFile outputPath plaintext w1 with
            | (some err, w2) => (some (.writeDecrypted outputPath err), w2)
            | (none, w2) =>
              (none, w2.print ("Decrypted " ++ filename ++ " -> " ++ outputPath ++ "\n"))

/-- The body of the loop of `worker`: one job, by the mode. -/
def runJob (key : Bytes) (inputDir outputDir mode : String) (job : String) (w : World) :
    Option Err × World :=
  if mode = "encrypt" then encryptFile job key inputDir outputDir w
  else if mode = "decrypt" then decryptFile job key inputDir outputDir w
  else (some (.invalidMode mode), w)

/-- Function `worker` of `main.go` on the jobs it receives, in order: the
results it sends and the world after the channel of jobs is drained. -/
def worker (jobs : List String) (key : Bytes) (inputDir outputDir mode : String) (w : World) :
    List (Option Err) × World :=
  match jobs with
  | [] => ([], w)
  | job :: rest =>
    let r := runJob key inputDir outputDir mode job w
    let rs := worker rest key inputDir outputDir mode r.2
    (r.1 :: rs.1, rs.2)

/-- The usage text of `main`. -/
def usage : String :=
  "Usage: go run main.go -in [input_dir] -out [output_dir] -key [32_byte_key] " ++
    "-mode [encrypt|decrypt]\n"

/-- The text `main` prints for a key that is not 32 bytes of hexadecimal. -/
def invalidKeyMessage : String := "Invalid key. Must be 32 bytes (64 hex characters).\n"

/-- The loop of `main` over the results: print every error. -/
def printErrors (results : List (Option Err)) (w : World) : World :=
  results.foldl
    (fun w r =>
      match r with
      | some err => w.print ("Error: " ++ err.Error ++ "\n")
      | none => w)
    w

/-- Function `main` of `main.go` on the values of its four flags: the world
after the run.  The pool is run by its sequential schedule. -/
def main (inputDir outputDir key mode : String) (w : World) : World :=
  if inputDir = "" ∨ outputDir = "" ∨ key = "" then w.print usage
  else
    let decoded := hex.DecodeString key
    if decoded.2 ≠ none ∨ decoded.1.length ≠ 32 then
      w.print invalidKeyMessage
    else
      match filepath.Glob (filepath.Join [inputDir, "*"]) w with
      | (.error err, w1) => w1.print ("Error reading input directory: " ++ err ++ "\n")
      | (.ok files, w1) =>
        let r := worker files decoded.1 inputDir outputDir mode w1
        (printErrors r.1 r.2).print (mode ++ " complete!\n")

/-! ## Vocabulary of the statements -/

/-- The output path of a job, by the mode (lines 107 and 144). -/
def outputPath (mode outputDir job : String) : String :=
  if mode = "encrypt" then encryptOutputPath outputDir job else decryptOutputPath outputDir job

/-- A name that a directory entry can have: not empty, without separator, and
neither `.` nor `..`.  `filepath.Glob` returns `Join(dir, name)` for the
entries `name` of the directories it lists. -/
def IsEntryName (n : String) : Prop :=
  n ≠ "" ∧ filepath.Separator ∉ n.data ∧ n ≠ "." ∧ n ≠ ".."

/-- Whether an error is one of the two errors of writing the output. -/
def Err.isWrite : Err → Bool
  | .writeEncrypted _ _ => true
  | .writeDecrypted _ _ => true
  | _ => false

/-- Whether a result says that the job came to its call of `os.WriteFile`: it
is a success or an error of writing. -/
def reachedWrite : Option Err → Bool
  | none => true
  | some err => err.isWrite

/-- Whether `os.WriteFile` opens the file at a path, so creates or truncates
it, be the write complete or not. -/
def World.opens (w : World) (p : String) : Bool := w.writable p || (w.shortWrite p).isSome

/-- The world in which job `i` of a list starts: the one the worker has made
of `w` with the jobs before it. -/
def worldBefore (jobs : List String) (key : Bytes) (inputDir outputDir mode : String) (w : World)
    (i : Nat) : World :=
  (worker (jobs.take i) key inputDir outputDir mode w).2

/-- The world with the random source in another state. -/
def World.withEntropy (w : World) (e : Bytes) : World := { w with entropy := e }

/-- Two worlds with the same files but maybe the one at `p`, the same outcomes
of writing and the same random source. -/
def AgreeOff (p : String) (a b : World) : Prop :=
  (∀ q, q ≠ p → a.files q = b.files q) ∧ a.writable = b.writable ∧
    a.shortWrite = b.shortWrite ∧ a.entropy = b.entropy

/-- The later world has the trace of the earlier one, and more. -/
def World.Extends (w w2 : World) : Prop := ∃ evs, w2.trace = w.trace ++ evs

namespace filepath

/-- A real element of a path, as the loop of `Clean` sees it. -/
def IsElement (e : List Char) : Prop :=
  e ≠ [] ∧ Separator ∉ e ∧ e ≠ ['.'] ∧ e ≠ ['.', '.']

/-- In a rooted path the output buffer of `Clean` keeps its leading separator. -/
def RootKept (rooted : Bool) (st : List Char × Nat) : Prop :=
  rooted = true → st.2 = 1 ∧ ∃ t, st.1 = Separator :: t

/-- A buffer that is empty or ends with a separator, followed by an element. -/
def EndsWith (e : List Char) (out : List Char) : Prop :=
  ∃ x, out = x ++ e ∧ (x = [] ∨ ∃ y, x = y ++ [Separator])

end filepath

/-! ## Concrete data for the examples -/

/-- The key of 32 zero bytes. -/
def exampleKey : Bytes := List.replicate 32 0

/-- The key of 32 zero bytes, in hexadecimal. -/
def exampleHexKey : String :=
  "0000000000000000000000000000000000000000000000000000000000000000"

/-- The blob of the empty plaintext under `exampleKey` and the zero nonce:
the nonce and the tag (test case 13 of the GCM specification). -/
def sealedEmpty : Bytes :=
  List.replicate 12 0 ++
    [83, 15, 138, 251, 199, 69, 54, 185, 169, 99, 180, 241, 196, 203, 115, 139]

/-- The blob `sealedEmpty` with the lowest bit of its last byte flipped. -/
def tamperedBlob : Bytes :=
  List.replicate 12 0 ++
    [83, 15, 138, 251, 199, 69, 54, 185, 169, 99, 180, 241, 196, 203, 115, 138]

/-- A world with one plaintext file and an empty output directory. -/
def exampleWorld : World where
  files := fun p => if p = "in/a.txt" then some [104, 105] else none
  writable := fun _ => true
  shortWrite := fun _ => none
  listing := fun _ => .ok ["in/a.txt"]
  entropy := List.range 12 ++ [7, 7]
  trace := []

/-- A world with three files to decrypt: `in/a` is too short, `in/a.enc` is a
valid blob and `in/t.enc` a tampered one. -/
def decryptWorld : World where
  files := fun p =>
    if p = "in/a" then some [1, 2, 3]
    else if p = "in/a.enc" then some sealedEmpty
    else if p = "in/t.enc" then some tamperedBlob
    else none
  writable := fun _ => true
  shortWrite := fun _ => none
  listing := fun _ => .ok ["in/a", "in/a.enc", "in/t.enc"]
  entropy := []
  trace := []

/-- The world `decryptWorld` where the output directory already holds `out/a`,
left by an earlier run. -/
def staleWorld : World :=
  { decryptWorld with files := fun p => if p = "out/a" then some [9] else decryptWorld.files p }

/-- The world `exampleWorld` where the write of `out/a.txt.enc` fails after the
file was opened and five bytes were written. -/
def fullDiskWorld : World :=
  { exampleWorld with
    writable := fun p => decide (p ≠ "out/a.txt.enc")
    shortWrite := fun p => if p = "out/a.txt.enc" then some 5 else none }

/-- A world with two plaintext files and a random source of one nonce, where
`out/x.enc` cannot be opened for writing. -/
def scarceWorld : World where
  files := fun p =>
    if p = "in/x" then some [1] else if p = "in/a.txt" then some [104, 105] else none
  writable := fun p => decide (p ≠ "out/x.enc")
  shortWrite := fun _ => none
  listing := fun _ => .ok ["in/x", "in/a.txt"]
  entropy := List.range 12
  trace := []

/-- A world where the directory `d` is both read and written: it holds three
valid blobs, `d/a`, `d/a.enc` and `d/a.enc.enc`. -/
def inPlaceWorld : World where
  files := fun p =>
    if p = "d/a" ∨ p = "d/a.enc" ∨ p = "d/a.enc.enc" then some sealedEmpty else none
  writable := fun _ => true
  shortWrite := fun _ => none
  listing := fun _ => .ok ["d/a", "d/a.enc", "d/a.enc.enc"]
  entropy := []
  trace := []

/-- The world `inPlaceWorld` where the write of `d/a.enc` fails after the file
was opened, before any byte was written. -/
def tornWorld : World :=
  { inPlaceWorld with
    writable := fun p => decide (p ≠ "d/a.enc")
    shortWrite := fun p => if p = "d/a.enc" then some 0 else none }

/-! ## Facts about the cipher -/

namespace cipher

theorem xorStream_length (ks : Nat → Nat) (off : Nat) (src : Bytes) :
    (xorStream ks off src).length = src.length := by
  induction src generalizing off with
  | nil => rfl
  | cons b bs ih => simp [xorStream, ih]

/-- Counter mode is its own inverse. -/
theorem xorStream_xorStream (ks : Nat → Nat) (off : Nat) (src : Bytes) :
    xorStream ks off (xorStream ks off src) = src := by
  induction src generalizing off with
  | nil => rfl
  | cons b bs ih => simp [xorStream, ih, Nat.xor_cancel_right]

theorem toBytes_length (n v : Nat) : (toBytes n v).length = n := by
  simp [toBytes]

theorem GCM.counterCrypt_length (g : GCM) (nonce src : Bytes) :
    (g.counterCrypt nonce src).length = src.length :=
  xorStream_length _ _ _

theorem GCM.counterCrypt_counterCrypt (g : GCM) (nonce src : Bytes) :
    g.counterCrypt nonce (g.counterCrypt nonce src) = src :=
  xorStream_xorStream _ _ _

theorem GCM.auth_length (g : GCM) (nonce ciphertext data : Bytes) :
    (g.auth nonce ciphertext data).length = 16 := by
  simp [GCM.auth, toBytes_length]

theorem GCM.Seal_eq (g : GCM) (dst nonce plaintext data : Bytes) :
    g.Seal dst nonce plaintext data =
      dst ++ (g.counterCrypt nonce plaintext ++
        g.auth nonce (g.counterCrypt nonce plaintext) data) := by
  simp [GCM.Seal]

/-- What `Seal` appends is accepted by `Open`, which returns the plaintext. -/
theorem GCM.Open_sealed (g : GCM) (nonce plaintext data : Bytes) :
    g.Open [] nonce (g.counterCrypt nonce plaintext ++
        g.auth nonce (g.counterCrypt nonce plaintext) data) data = .ok plaintext := by
  have hlen : (g.counterCrypt nonce plaintext ++
      g.auth nonce (g.counterCrypt nonce plaintext) data).length - gcmTagSize =
      (g.counterCrypt nonce plaintext).length := by
    simp [GCM.auth_length, gcmTagSize]
  unfold GCM.Open
  rw [hlen, List.drop_left, List.take_left]
  simp [GCM.auth_length, gcmTagSize, GCM.counterCrypt_counterCrypt]

theorem NewGCM_eq (b : aes.Block) : NewGCM b = .ok { cipher := b } := by
  simp [NewGCM, aes.Block.BlockSize, aes.BlockSize]

end cipher

namespace filepath

theorem splitSlash_ne_nil (l : List Char) : splitSlash l ≠ [] := by
  cases l with
  | nil => simp [splitSlash]
  | cons c cs =>
    simp only [splitSlash]
    split
    · simp
    · split <;> simp

theorem splitSlash_of_not_mem {e : List Char} (h : Separator ∉ e) : splitSlash e = [e] := by
  induction e with
  | nil => rfl
  | cons c cs ih =>
    have hc : c ≠ Separator := fun hc => h (by simp [hc])
    have hcs : Separator ∉ cs := fun hm => h (List.mem_cons_of_mem _ hm)
    simp [splitSlash, hc, ih hcs]

theorem splitSlash_append_sep (d r : List Char) :
    splitSlash (d ++ Separator :: r) = splitSlash d ++ splitSlash r := by
  induction d with
  | nil => simp [splitSlash]
  | cons c cs ih =>
    by_cases hc : c = Separator
    · simp [splitSlash, hc, ih]
    · simp only [List.cons_append, splitSlash, hc, if_false, List.append_eq]
      rw [ih]
      cases hs : splitSlash cs with
      | nil => exact absurd hs (splitSlash_ne_nil cs)
      | cons h t => simp

theorem backtrack_ge (out : List Char) (dotdot w : Nat) (h : dotdot ≤ w) :
    dotdot ≤ backtrack out dotdot w := by
  induction w with
  | zero => simpa [backtrack] using h
  | succ n ih =>
    simp only [backtrack]
    split
    · next hc => exact ih (by omega)
    · exact h

theorem cleanStep_rootKept (rooted : Bool) (st : List Char × Nat) (e : List Char)
    (h : RootKept rooted st) : RootKept rooted (cleanStep rooted st e) := by
  intro hr
  obtain ⟨h2, t, ht⟩ := h hr
  unfold cleanStep
  split
  · exact ⟨h2, t, ht⟩
  · split
    · exact ⟨h2, t, ht⟩
    · split
      · split
        · next hlt =>
          refine ⟨h2, ?_⟩
          have hge : 1 ≤ backtrack st.1 st.2 (st.1.length - 1) := by
            have := backtrack_ge st.1 st.2 (st.1.length - 1) (by omega)
            omega
          obtain ⟨k, hk⟩ : ∃ k, backtrack st.1 st.2 (st.1.length - 1) = k + 1 :=
            ⟨backtrack st.1 st.2 (st.1.length - 1) - 1, by omega⟩
          dsimp only
          rw [hk, ht, List.take_succ_cons]
          exact ⟨_, rfl⟩
        · simp [hr]
          exact ⟨h2, t, ht⟩
      · refine ⟨h2, ?_⟩
        simp only [ht]
        split <;> simp

theorem foldl_cleanStep_rootKept (rooted : Bool) (xs : List (List Char)) (st : List Char × Nat)
    (h : RootKept rooted st) : RootKept rooted (xs.foldl (cleanStep rooted) st) := by
  induction xs generalizing st with
  | nil => exact h
  | cons x xs ih => exact ih _ (cleanStep_rootKept rooted st x h)

theorem cleanStep_element (rooted : Bool) (st : List Char × Nat) (e : List Char)
    (he : IsElement e) (h : RootKept rooted st) : EndsWith e (cleanStep rooted st e).1 := by
  obtain ⟨h1, _, h3, h4⟩ := he
  simp only [cleanStep, h1, h3, h4, if_false]
  split
  · exact ⟨st.1 ++ [Separator], rfl, Or.inr ⟨_, rfl⟩⟩
  · next hc =>
    cases rooted with
    | false =>
      have : st.1.length = 0 := by
        by_contra hne
        exact hc (Or.inr ⟨rfl, hne⟩)
      have hnil : st.1 = [] := List.length_eq_zero.mp this
      exact ⟨[], by simp [hnil], Or.inl rfl⟩
    | true =>
      have hlen : st.1.length = 1 := by
        by_contra hne
        exact hc (Or.inl ⟨rfl, hne⟩)
      obtain ⟨_, t, ht⟩ := h rfl
      have ht0 : t = [] := by
        rw [ht] at hlen
        simpa using hlen
      exact ⟨[Separator], by simp [ht, ht0], Or.inr ⟨[], rfl⟩⟩

theorem takeWhile_element (l r : List Char) (h : Separator ∉ l) :
    (l ++ Separator :: r).takeWhile (fun c => c ≠ Separator) = l := by
  induction l with
  | nil => simp
  | cons c cs ih =>
    have hc : c ≠ Separator := fun hc => h (by simp [hc])
    have hcs : Separator ∉ cs := fun hm => h (List.mem_cons_of_mem _ hm)
    simpa [hc] using ih hcs

theorem takeWhile_all (l : List Char) (h : Separator ∉ l) :
    l.takeWhile (fun c => c ≠ Separator) = l := by
  induction l with
  | nil => simp
  | cons c cs ih =>
    have hc : c ≠ Separator := fun hc => h (by simp [hc])
    have hcs : Separator ∉ cs := fun hm => h (List.mem_cons_of_mem _ hm)
    simpa [hc] using ih hcs

theorem dropWhile_element (l r : List Char) (hne : l ≠ []) (h : Separator ∉ l) :
    (l ++ r).dropWhile (fun c => c = Separator) = l ++ r := by
  cases l with
  | nil => exact absurd rfl hne
  | cons c cs =>
    have hc : c ≠ Separator := fun hc => h (by simp [hc])
    simp [hc]

/-- The last element of a buffer that ends with the element `e` is `e`. -/
theorem baseChars_endsWith (e out : List Char) (hne : e ≠ []) (hsep : Separator ∉ e)
    (h : EndsWith e out) : baseChars out = e := by
  obtain ⟨x, rfl, hx⟩ := h
  have hrne : e.reverse ≠ [] := by simpa using hne
  have hrsep : Separator ∉ e.reverse := by simpa using hsep
  have hout : x ++ e ≠ [] := by simp [hne]
  unfold baseChars
  rw [if_neg hout]
  rcases hx with rfl | ⟨y, rfl⟩
  · have h1 := dropWhile_element e.reverse [] hrne hrsep
    simp only [List.append_nil] at h1
    simp only [List.nil_append, h1, takeWhile_all _ hrsep, List.reverse_reverse]
    simp [hne]
  · have hrev : (y ++ [Separator] ++ e).reverse = e.reverse ++ Separator :: y.reverse := by
      simp
    simp only [hrev, dropWhile_element _ _ hrne hrsep, takeWhile_element _ _ hrsep,
      List.reverse_reverse]
    simp [hne]

/-- Cleaning a path whose last element is a real element keeps it last. -/
theorem cleanChars_endsWith (pre e : List Char) (he : IsElement e)
    (hpre : pre = [] ∨ ∃ y, pre = y ++ [Separator]) : EndsWith e (cleanChars (pre ++ e)) := by
  have hne : pre ++ e ≠ [] := by simp [he.1]
  have hsplit : ∃ xs, splitSlash (pre ++ e) = xs ++ [e] := by
    rcases hpre with rfl | ⟨y, rfl⟩
    · exact ⟨[], by simp [splitSlash_of_not_mem he.2.1]⟩
    · refine ⟨splitSlash y, ?_⟩
      rw [List.append_assoc, List.singleton_append, splitSlash_append_sep,
        splitSlash_of_not_mem he.2.1]
  obtain ⟨xs, hxs⟩ := hsplit
  have key : ∀ (rooted : Bool) (start : List Char × Nat), RootKept rooted start →
      EndsWith e ((splitSlash (pre ++ e)).foldl (cleanStep rooted) start).1 := by
    intro rooted start hstart
    rw [hxs, List.foldl_append]
    exact cleanStep_element rooted _ e he (foldl_cleanStep_rootKept rooted xs start hstart)
  unfold cleanChars
  rw [if_neg hne]
  have hstart : ∀ rooted : Bool,
      RootKept rooted (if rooted = true then ([Separator], 1) else ([], 0)) := by
    intro rooted hr
    simp [hr]
  have hres := key (decide ((pre ++ e).head? = some Separator)) _ (hstart _)
  obtain ⟨x, hx, hxe⟩ := hres
  have hlen : ¬ ((splitSlash (pre ++ e)).foldl
      (cleanStep (decide ((pre ++ e).head? = some Separator)))
      (if decide ((pre ++ e).head? = some Separator) = true then ([Separator], 1)
        else ([], 0))).1.length = 0 := by
    rw [hx, List.length_append]
    have := List.length_pos.mpr he.1
    omega
  simp only [hlen, if_false]
  exact ⟨x, hx, hxe⟩

theorem isElement_of_entryName {n : String} (h : IsEntryName n) : IsElement n.data := by
  obtain ⟨h1, h2, h3, h4⟩ := h
  refine ⟨?_, h2, ?_, ?_⟩
  · intro hd
    exact h1 (String.ext hd)
  · intro hd
    exact h3 (String.ext hd)
  · intro hd
    exact h4 (String.ext hd)

/-- Joining a directory and a real element gives a path whose base is that
element. -/
theorem Base_Join (d n : String) (hn : IsElement n.data) : Base (Join [d, n]) = n := by
  have hne : n ≠ "" := by
    intro h
    exact hn.1 (by rw [h])
  apply String.ext
  by_cases hd : d = ""
  · subst hd
    have hj : Join ["", n] = Clean n := by
      simp [Join, hne, String.intercalate, String.intercalate.go]
    rw [hj]
    simp only [Base, Clean]
    have := cleanChars_endsWith [] n.data hn (Or.inl rfl)
    exact baseChars_endsWith _ _ hn.1 hn.2.1 (by simpa using this)
  · have hj : Join [d, n] = Clean (d ++ "/" ++ n) := by
      simp [Join, hd, String.intercalate, String.intercalate.go]
    rw [hj]
    simp only [Base, Clean, String.data_append]
    exact baseChars_endsWith _ _ hn.1 hn.2.1
      (cleanChars_endsWith (d.data ++ [Separator]) n.data hn (Or.inr ⟨_, rfl⟩))

end filepath

namespace strings

theorem TrimSuffix_append (s suffix : String) : TrimSuffix (s ++ suffix) suffix = s := by
  have h : HasSuffix (s ++ suffix) suffix = true := by
    simp [HasSuffix, String.data_append]
  simp only [TrimSuffix, h, if_true]
  apply String.ext
  simp [String.data_append]

end strings

/-! ## The two transforms -/

theorem NewCipher_of_length (key : Bytes) (h : key.length = 32) :
    aes.NewCipher key = .ok { enc := aes.expandKey key } := by
  simp [aes.NewCipher, h]

/-- C1 (byte-level round trip).  For every key of 32 bytes, every plaintext
`P` held by the input file and every nonce of 12 bytes that the random source
delivers, `encryptFile` succeeds and stores the blob `gcm.Seal(nonce, nonce, P,
nil)`, which starts with the nonce; and `decryptFile` under the same key, on
any file holding that blob, splits it at 12 bytes, opens it, succeeds and
stores exactly `P`. -/
theorem encrypt_decrypt_round_trip (key nonce rest P : Bytes) (f inputDir out1 : String)
    (w : World) (hkey : key.length = 32) (hnonce : nonce.length = 12)
    (hread : w.files f = some P) (hrand : w.entropy = nonce ++ rest)
    (hwrite : w.writable (encryptOutputPath out1 f) = true) :
    ∃ (block : aes.Block) (gcm : cipher.GCM),
      aes.NewCipher key = .ok block ∧ cipher.NewGCM block = .ok gcm ∧
      (encryptFile f key inputDir out1 w).1 = none ∧
      (encryptFile f key inputDir out1 w).2.files (encryptOutputPath out1 f) =
        some (gcm.Seal nonce nonce P []) ∧
      (gcm.Seal nonce nonce P []).take 12 = nonce ∧
      gcm.Open [] ((gcm.Seal nonce nonce P []).take 12) ((gcm.Seal nonce nonce P []).drop 12) []
        = .ok P ∧
      ∀ (g inputDir2 out2 : String) (w2 : World),
        w2.files g = some (gcm.Seal nonce nonce P []) →
        w2.writable (decryptOutputPath out2 g) = true →
        (decryptFile g key inputDir2 out2 w2).1 = none ∧
        (decryptFile g key inputDir2 out2 w2).2.files (decryptOutputPath out2 g) = some P := by
  refine ⟨{ enc := aes.expandKey key }, { cipher := { enc := aes.expandKey key } },
    NewCipher_of_length key hkey, cipher.NewGCM_eq _, ?_, ?_, ?_, ?_, ?_⟩
  · simp [encryptFile, os.ReadFile, hread, NewCipher_of_length key hkey, cipher.NewGCM_eq,
      rand.ReadFull, cipher.GCM.NonceSize, cipher.gcmStandardNonceSize, World.log, hrand,
      hnonce, os.WriteFile, hwrite]
  · simp [encryptFile, os.ReadFile, hread, NewCipher_of_length key hkey, cipher.NewGCM_eq,
      rand.ReadFull, cipher.GCM.NonceSize, cipher.gcmStandardNonceSize, World.log, hrand,
      hnonce, os.WriteFile, hwrite, World.print, List.take_left' hnonce]
  · rw [cipher.GCM.Seal_eq, List.take_left' hnonce]
  · rw [cipher.GCM.Seal_eq, List.take_left' hnonce, List.drop_left' hnonce]
    exact cipher.GCM.Open_sealed _ _ _ _
  · intro g inputDir2 out2 w2 hread2 hwrite2
    have hopen : cipher.GCM.Open { cipher := { enc := aes.expandKey key } } []
        (List.take 12 (cipher.GCM.Seal { cipher := { enc := aes.expandKey key } } nonce nonce P []))
        (List.drop 12 (cipher.GCM.Seal { cipher := { enc := aes.expandKey key } } nonce nonce P []))
        [] = .ok P := by
      rw [cipher.GCM.Seal_eq, List.take_left' hnonce, List.drop_left' hnonce]
      exact cipher.GCM.Open_sealed _ _ _ _
    have hlen : ¬ (cipher.GCM.Seal { cipher := { enc := aes.expandKey key } } nonce nonce P
        []).length < 12 := by
      rw [cipher.GCM.Seal_eq]
      simp [hnonce]
    constructor
    · simp [decryptFile, os.ReadFile, hread2, NewCipher_of_length key hkey, cipher.NewGCM_eq,
        cipher.GCM.NonceSize, cipher.gcmStandardNonceSize, hlen, hopen, os.WriteFile, World.log,
        hwrite2]
    · simp [decryptFile, os.ReadFile, hread2, NewCipher_of_length key hkey, cipher.NewGCM_eq,
        cipher.GCM.NonceSize, cipher.gcmStandardNonceSize, hlen, hopen, os.WriteFile, World.log,
        hwrite2, World.print]

/-- C2 (authentication failure never emits plaintext).  For every key and
every input blob of at least 12 bytes, if opening `blob[12:]` under the nonce
`blob[:12]` fails, `decryptFile` returns an error and the world after the call
is the world before it with the read of the input recorded: the file system
is unchanged, nothing was written and nothing was printed. -/
theorem decryptFile_auth_failure (key blob : Bytes) (f inputDir outputDir : String) (w : World)
    (hread : w.files f = some blob) (hlen : 12 ≤ blob.length)
    (hfail : ∀ block gcm, aes.NewCipher key = .ok block → cipher.NewGCM block = .ok gcm →
      ∃ e, gcm.Open [] (blob.take 12) (blob.drop 12) [] = .error e) :
    (decryptFile f key inputDir outputDir w).1 ≠ none ∧
    (decryptFile f key inputDir outputDir w).2 = w.log (.readFile f) ∧
    (decryptFile f key inputDir outputDir w).2.files = w.files := by
  have hnot : ¬ blob.length < 12 := by omega
  cases hc : aes.NewCipher key with
  | error e =>
    simp [decryptFile, os.ReadFile, hread, hc, World.log]
  | ok block =>
    obtain ⟨e, he⟩ := hfail block { cipher := block } hc (cipher.NewGCM_eq block)
    simp [decryptFile, os.ReadFile, hread, hc, cipher.NewGCM_eq, cipher.GCM.NonceSize,
      cipher.gcmStandardNonceSize, hnot, he, World.log]

/-- C3 (short input is rejected).  For every key the cipher accepts and every
input blob `B`: when `len(B) < 12`, `decryptFile` returns the error
"ciphertext too short" and leaves the world as it was but for the recorded
read of the input (no output file is written), whatever the payload; when
`len(B) >= 12` it never returns that error. -/
theorem decryptFile_short_input (key blob : Bytes) (f inputDir outputDir : String) (w : World)
    (hkey : ∃ block, aes.NewCipher key = .ok block) (hread : w.files f = some blob) :
    (blob.length < 12 →
      decryptFile f key inputDir outputDir w = (some (.tooShort f), w.log (.readFile f))) ∧
    (12 ≤ blob.length → ∀ g, (decryptFile f key inputDir outputDir w).1 ≠ some (.tooShort g)) := by
  obtain ⟨block, hc⟩ := hkey
  constructor
  · intro hshort
    simp [decryptFile, os.ReadFile, hread, hc, cipher.NewGCM_eq, cipher.GCM.NonceSize,
      cipher.gcmStandardNonceSize, hshort]
  · intro hlong g
    have hnot : ¬ blob.length < 12 := by omega
    simp only [decryptFile, os.ReadFile, hread, hc, cipher.NewGCM_eq, cipher.GCM.NonceSize,
      cipher.gcmStandardNonceSize, hnot, if_false]
    cases cipher.GCM.Open { cipher := block } [] (List.take 12 blob) (List.drop 12 blob) [] with
    | error e => simp
    | ok plaintext =>
      by_cases hw : w.writable (decryptOutputPath outputDir f) = true
      · simp [os.WriteFile, World.log, hw]
      · cases hs : w.shortWrite (decryptOutputPath outputDir f) <;>
          simp [os.WriteFile, World.log, hw, hs]

/-! ## What one job does to the world -/

/-- What a call of `encryptFile` does to the world: the outcomes of writing
and the listing stay, no file but the one at its output path changes, no file
is removed, and the file at the output path is there afterwards exactly when
it was before or the call came to `os.WriteFile` and the file was opened. -/
theorem encryptFile_effect (f : String) (key : Bytes) (inputDir outputDir : String) (w : World) :
    (encryptFile f key inputDir outputDir w).2.writable = w.writable ∧
    (encryptFile f key inputDir outputDir w).2.shortWrite = w.shortWrite ∧
    (encryptFile f key inputDir outputDir w).2.listing = w.listing ∧
    (∀ q, q ≠ encryptOutputPath outputDir f →
      (encryptFile f key inputDir outputDir w).2.files q = w.files q) ∧
    (∀ q, ((encryptFile f key inputDir outputDir w).2.files q).isSome =
      ((w.files q).isSome || (decide (q = encryptOutputPath outputDir f) &&
        reachedWrite (encryptFile f key inputDir outputDir w).1 &&
        w.opens (encryptOutputPath outputDir f)))) ∧
    ((encryptFile f key inputDir outputDir w).1 = none →
      w.writable (encryptOutputPath outputDir f) = true) ∧
    (reachedWrite (encryptFile f key inputDir outputDir w).1 = true →
      w.writable (encryptOutputPath outputDir f) = true →
      (encryptFile f key inputDir outputDir w).1 = none) := by
  unfold encryptFile os.ReadFile
  cases w.files f with
  | none => simp [World.log, reachedWrite, Err.isWrite]
  | some plaintext =>
    cases aes.NewCipher key with
    | error e => simp [World.log, reachedWrite, Err.isWrite]
    | ok block =>
      by_cases hE : 12 ≤ w.entropy.length
      · by_cases hw : w.writable (encryptOutputPath outputDir f) = true
        · simp only [cipher.NewGCM_eq, rand.ReadFull, cipher.GCM.NonceSize,
            cipher.gcmStandardNonceSize, World.log, hE, if_true, os.WriteFile, hw, World.print]
          refine ⟨trivial, trivial, trivial, ?_, ?_, ?_, ?_⟩
          · intro q hq
            simp [hq]
          · intro q
            by_cases hq : q = encryptOutputPath outputDir f <;>
              simp [hq, reachedWrite, World.opens, hw]
          · simp
          · simp
        · cases hs : w.shortWrite (encryptOutputPath outputDir f) with
          | none =>
            simp [cipher.NewGCM_eq, rand.ReadFull, cipher.GCM.NonceSize,
              cipher.gcmStandardNonceSize, World.log, hE, os.WriteFile, hw, hs, World.opens]
          | some k =>
            simp only [cipher.NewGCM_eq, rand.ReadFull, cipher.GCM.NonceSize,
              cipher.gcmStandardNonceSize, World.log, hE, if_true, os.WriteFile, hw, hs,
              Bool.false_eq_true, if_false]
            refine ⟨trivial, trivial, trivial, ?_, ?_, ?_, ?_⟩
            · intro q hq
              simp [hq]
            · intro q
              by_cases hq : q = encryptOutputPath outputDir f <;>
                simp [hq, reachedWrite, Err.isWrite, World.opens, hs]
            · simp
            · simp [hw]
      · simp [cipher.NewGCM_eq, rand.ReadFull, cipher.GCM.NonceSize,
          cipher.gcmStandardNonceSize, World.log, hE, reachedWrite, Err.isWrite]

/-- What a call of `decryptFile` does to the world. -/
theorem decryptFile_effect (f : String) (key : Bytes) (inputDir outputDir : String) (w : World) :
    (decryptFile f key inputDir outputDir w).2.writable = w.writable ∧
    (decryptFile f key inputDir outputDir w).2.shortWrite = w.shortWrite ∧
    (decryptFile f key inputDir outputDir w).2.listing = w.listing ∧
    (∀ q, q ≠ decryptOutputPath outputDir f →
      (decryptFile f key inputDir outputDir w).2.files q = w.files q) ∧
    (∀ q, ((decryptFile f key inputDir outputDir w).2.files q).isSome =
      ((w.files q).isSome || (decide (q = decryptOutputPath outputDir f) &&
        reachedWrite (decryptFile f key inputDir outputDir w).1 &&
        w.opens (decryptOutputPath outputDir f)))) ∧
    ((decryptFile f key inputDir outputDir w).1 = none →
      w.writable (decryptOutputPath outputDir f) = true) ∧
    (reachedWrite (decryptFile f key inputDir outputDir w).1 = true →
      w.writable (decryptOutputPath outputDir f) = true →
      (decryptFile f key inputDir outputDir w).1 = none) := by
  unfold decryptFile os.ReadFile
  cases w.files f with
  | none => simp [World.log, reachedWrite, Err.isWrite]
  | some blob =>
    cases aes.NewCipher key with
    | error e => simp [World.log, reachedWrite, Err.isWrite]
    | ok block =>
      by_cases hlen : blob.length < 12
      · simp [cipher.NewGCM_eq, cipher.GCM.NonceSize, cipher.gcmStandardNonceSize, hlen,
          World.log, reachedWrite, Err.isWrite]
      · simp only [cipher.NewGCM_eq, cipher.GCM.NonceSize, cipher.gcmStandardNonceSize, hlen,
          if_false]
        cases cipher.GCM.Open { cipher := block } [] (List.take 12 blob) (List.drop 12 blob)
            [] with
        | error e => simp [World.log, reachedWrite, Err.isWrite]
        | ok plaintext =>
          by_cases hw : w.writable (decryptOutputPath outputDir f) = true
          · simp only [World.log, os.WriteFile, hw, if_true, World.print]
            refine ⟨trivial, trivial, trivial, ?_, ?_, ?_, ?_⟩
            · intro q hq
              simp [hq]
            · intro q
              by_cases hq : q = decryptOutputPath outputDir f <;>
                simp [hq, reachedWrite, World.opens, hw]
            · simp
            · simp
          · cases hs : w.shortWrite (decryptOutputPath outputDir f) with
            | none => simp [World.log, os.WriteFile, hw, hs, World.opens]
            | some k =>
              simp only [World.log, os.WriteFile, hw, hs, Bool.false_eq_true, if_false]
              refine ⟨trivial, trivial, trivial, ?_, ?_, ?_, ?_⟩
              · intro q hq
                simp [hq]
              · intro q
                by_cases hq : q = decryptOutputPath outputDir f <;>
                  simp [hq, reachedWrite, Err.isWrite, World.opens, hs]
              · simp
              · simp [hw]

/-- What one job does to the world. -/
theorem runJob_effect (key : Bytes) (inputDir outputDir mode job : String) (w : World) :
    (runJob key inputDir outputDir mode job w).2.writable = w.writable ∧
    (runJob key inputDir outputDir mode job w).2.shortWrite = w.shortWrite ∧
    (runJob key inputDir outputDir mode job w).2.listing = w.listing ∧
    (∀ q, q ≠ outputPath mode outputDir job →
      (runJob key inputDir outputDir mode job w).2.files q = w.files q) ∧
    (∀ q, ((runJob key inputDir outputDir mode job w).2.files q).isSome =
      ((w.files q).isSome || (decide (q = outputPath mode outputDir job) &&
        reachedWrite (runJob key inputDir outputDir mode job w).1 &&
        w.opens (outputPath mode outputDir job)))) ∧
    ((runJob key inputDir outputDir mode job w).1 = none →
      w.writable (outputPath mode outputDir job) = true) ∧
    (reachedWrite (runJob key inputDir outputDir mode job w).1 = true →
      w.writable (outputPath mode outputDir job) = true →
      (runJob key inputDir outputDir mode job w).1 = none) := by
  unfold runJob outputPath
  by_cases he : mode = "encrypt"
  · simp only [he, if_true]
    exact encryptFile_effect job key inputDir outputDir w
  · by_cases hd : mode = "decrypt"
    · simp only [he, hd, if_true, if_false]
      exact decryptFile_effect job key inputDir outputDir w
    · simp [he, hd, reachedWrite, Err.isWrite]

/-! ## What a job depends on -/

/-- The result of `encryptFile`, what it leaves of the random source and what
it stores depend on the world only through the input file, the outcomes of
writing and the random source. -/
theorem encryptFile_congr (a b : World) (f : String) (key : Bytes) (inputDir outputDir : String)
    (hf : a.files f = b.files f) (hw : a.writable = b.writable)
    (hs : a.shortWrite = b.shortWrite) (he : a.entropy = b.entropy) :
    (encryptFile f key inputDir outputDir a).1 = (encryptFile f key inputDir outputDir b).1 ∧
    (encryptFile f key inputDir outputDir a).2.entropy =
      (encryptFile f key inputDir outputDir b).2.entropy ∧
    ∀ q, a.files q = b.files q →
      (encryptFile f key inputDir outputDir a).2.files q =
        (encryptFile f key inputDir outputDir b).2.files q := by
  unfold encryptFile os.ReadFile
  rw [hf]
  cases b.files f with
  | none => simp [World.log, he]
  | some plaintext =>
    cases aes.NewCipher key with
    | error e => simp [World.log, he]
    | ok block =>
      by_cases hE : 12 ≤ b.entropy.length
      · by_cases hwb : b.writable (encryptOutputPath outputDir f) = true
        · have hwa : a.writable (encryptOutputPath outputDir f) = true := by rw [hw]; exact hwb
          simp only [cipher.NewGCM_eq, rand.ReadFull, cipher.GCM.NonceSize,
            cipher.gcmStandardNonceSize, World.log, he, hE, if_true, os.WriteFile, hwa, hwb,
            World.print, true_and]
          intro q hq
          by_cases hp : q = encryptOutputPath outputDir f <;> simp [hp, hq]
        · have hwa : ¬ a.writable (encryptOutputPath outputDir f) = true := by rw [hw]; exact hwb
          cases hsb : b.shortWrite (encryptOutputPath outputDir f) with
          | none =>
            have hsa : a.shortWrite (encryptOutputPath outputDir f) = none := by rw [hs]; exact hsb
            simp [cipher.NewGCM_eq, rand.ReadFull, cipher.GCM.NonceSize,
              cipher.gcmStandardNonceSize, World.log, he, hE, os.WriteFile, hwa, hwb, hsa, hsb]
          | some k =>
            have hsa : a.shortWrite (encryptOutputPath outputDir f) = some k := by
              rw [hs]; exact hsb
            simp only [cipher.NewGCM_eq, rand.ReadFull, cipher.GCM.NonceSize,
              cipher.gcmStandardNonceSize, World.log, he, hE, if_true, os.WriteFile, hwa, hwb,
              hsa, hsb, Bool.false_eq_true, if_false, true_and]
            intro q hq
            by_cases hp : q = encryptOutputPath outputDir f <;> simp [hp, hq]
      · simp [cipher.NewGCM_eq, rand.ReadFull, cipher.GCM.NonceSize,
          cipher.gcmStandardNonceSize, World.log, he, hE]

/-- The result of `encryptFile` does not depend on the bytes of the nonce:
two worlds where the random source can deliver one give the same result. -/
theorem encryptFile_result_congr (a b : World) (f : String) (key : Bytes)
    (inputDir outputDir : String) (hf : a.files f = b.files f) (hw : a.writable = b.writable)
    (hs : a.shortWrite = b.shortWrite) (hea : 12 ≤ a.entropy.length)
    (heb : 12 ≤ b.entropy.length) :
    (encryptFile f key inputDir outputDir a).1 = (encryptFile f key inputDir outputDir b).1 := by
  unfold encryptFile os.ReadFile
  rw [hf]
  cases b.files f with
  | none => simp [World.log]
  | some plaintext =>
    cases aes.NewCipher key with
    | error e => simp [World.log]
    | ok block =>
      by_cases hwb : b.writable (encryptOutputPath outputDir f) = true
      · have hwa : a.writable (encryptOutputPath outputDir f) = true := by rw [hw]; exact hwb
        simp [cipher.NewGCM_eq, rand.ReadFull, cipher.GCM.NonceSize,
          cipher.gcmStandardNonceSize, World.log, hea, heb, os.WriteFile, hwa, hwb]
      · have hwa : ¬ a.writable (encryptOutputPath outputDir f) = true := by rw [hw]; exact hwb
        cases hsb : b.shortWrite (encryptOutputPath outputDir f) with
        | none =>
          have hsa : a.shortWrite (encryptOutputPath outputDir f) = none := by rw [hs]; exact hsb
          simp [cipher.NewGCM_eq, rand.ReadFull, cipher.GCM.NonceSize,
            cipher.gcmStandardNonceSize, World.log, hea, heb, os.WriteFile, hwa, hwb, hsa, hsb]
        | some k =>
          have hsa : a.shortWrite (encryptOutputPath outputDir f) = some k := by
            rw [hs]; exact hsb
          simp [cipher.NewGCM_eq, rand.ReadFull, cipher.GCM.NonceSize,
            cipher.gcmStandardNonceSize, World.log, hea, heb, os.WriteFile, hwa, hwb, hsa, hsb]

/-- A call of `encryptFile` draws at most one nonce from a random source that
can deliver one. -/
theorem encryptFile_entropy (f : String) (key : Bytes) (inputDir outputDir : String) (w : World)
    (h : 12 ≤ w.entropy.length) :
    w.entropy.length ≤ (encryptFile f key inputDir outputDir w).2.entropy.length + 12 := by
  unfold encryptFile os.ReadFile
  cases w.files f with
  | none => simp [World.log]
  | some plaintext =>
    cases aes.NewCipher key with
    | error e => simp [World.log]
    | ok block =>
      by_cases hw : w.writable (encryptOutputPath outputDir f) = true
      · simp [cipher.NewGCM_eq, rand.ReadFull, cipher.GCM.NonceSize,
          cipher.gcmStandardNonceSize, World.log, h, os.WriteFile, hw, World.print]
      · cases hs : w.shortWrite (encryptOutputPath outputDir f) <;>
          simp [cipher.NewGCM_eq, rand.ReadFull, cipher.GCM.NonceSize,
            cipher.gcmStandardNonceSize, World.log, h, os.WriteFile, hw, hs]

/-- The result of `decryptFile` and what it stores depend on the world only
through the input file and the outcomes of writing; the random source is
left as it was. -/
theorem decryptFile_congr (a b : World) (f : String) (key : Bytes) (inputDir outputDir : String)
    (hf : a.files f = b.files f) (hw : a.writable = b.writable)
    (hs : a.shortWrite = b.shortWrite) :
    (decryptFile f key inputDir outputDir a).1 = (decryptFile f key inputDir outputDir b).1 ∧
    (decryptFile f key inputDir outputDir a).2.entropy = a.entropy ∧
    ∀ q, a.files q = b.files q →
      (decryptFile f key inputDir outputDir a).2.files q =
        (decryptFile f key inputDir outputDir b).2.files q := by
  unfold decryptFile os.ReadFile
  rw [hf]
  cases b.files f with
  | none => simp [World.log]
  | some blob =>
    cases aes.NewCipher key with
    | error e => simp [World.log]
    | ok block =>
      by_cases hlen : blob.length < 12
      · simp [cipher.NewGCM_eq, cipher.GCM.NonceSize, cipher.gcmStandardNonceSize, hlen,
          World.log]
      · simp only [cipher.NewGCM_eq, cipher.GCM.NonceSize, cipher.gcmStandardNonceSize, hlen,
          if_false]
        cases cipher.GCM.Open { cipher := block } [] (List.take 12 blob) (List.drop 12 blob)
            [] with
        | error e => simp [World.log]
        | ok plaintext =>
          by_cases hwb : b.writable (decryptOutputPath outputDir f) = true
          · have hwa : a.writable (decryptOutputPath outputDir f) = true := by
              rw [hw]; exact hwb
            simp only [World.log, os.WriteFile, hwa, hwb, if_true, World.print, true_and]
            intro q hq
            by_cases hp : q = decryptOutputPath outputDir f <;> simp [hp, hq]
          · have hwa : ¬ a.writable (decryptOutputPath outputDir f) = true := by
              rw [hw]; exact hwb
            cases hsb : b.shortWrite (decryptOutputPath outputDir f) with
            | none =>
              have hsa : a.shortWrite (decryptOutputPath outputDir f) = none := by
                rw [hs]; exact hsb
              simp [World.log, os.WriteFile, hwa, hwb, hsa, hsb]
            | some k =>
              have hsa : a.shortWrite (decryptOutputPath outputDir f) = some k := by
                rw [hs]; exact hsb
              simp only [World.log, os.WriteFile, hwa, hwb, hsa, hsb, Bool.false_eq_true,
                if_false, true_and]
              intro q hq
              by_cases hp : q = decryptOutputPath outputDir f <;> simp [hp, hq]

/-- One job in two worlds with the same input file, outcomes of writing and
random source: the same result, the same random source afterwards and the
same file wherever the worlds had the same file. -/
theorem runJob_congr (a b : World) (key : Bytes) (inputDir outputDir mode job : String)
    (hf : a.files job = b.files job) (hw : a.writable = b.writable)
    (hs : a.shortWrite = b.shortWrite) (he : a.entropy = b.entropy) :
    (runJob key inputDir outputDir mode job a).1 = (runJob key inputDir outputDir mode job b).1 ∧
    (runJob key inputDir outputDir mode job a).2.entropy =
      (runJob key inputDir outputDir mode job b).2.entropy ∧
    ∀ q, a.files q = b.files q →
      (runJob key inputDir outputDir mode job a).2.files q =
        (runJob key inputDir outputDir mode job b).2.files q := by
  unfold runJob
  by_cases hme : mode = "encrypt"
  · simp only [hme, if_true]
    exact encryptFile_congr a b job key inputDir outputDir hf hw hs he
  · by_cases hmd : mode = "decrypt"
    · subst hmd
      simp only [show ¬ ("decrypt" = "encrypt") by decide, if_true, if_false]
      obtain ⟨h1, h2, h3⟩ := decryptFile_congr a b job key inputDir outputDir hf hw hs
      obtain ⟨_, h2b, _⟩ := decryptFile_congr b a job key inputDir outputDir hf.symm hw.symm
        hs.symm
      exact ⟨h1, by rw [h2, h2b, he], h3⟩
    · simp only [hme, hmd, if_false]
      exact ⟨trivial, he, fun q hq => hq⟩

/-- One job in two worlds with the same input file and outcomes of writing,
where in mode "encrypt" the random source can deliver a nonce: the same
result. -/
theorem runJob_result_congr (a b : World) (key : Bytes) (inputDir outputDir mode job : String)
    (hf : a.files job = b.files job) (hw : a.writable = b.writable)
    (hs : a.shortWrite = b.shortWrite)
    (hea : mode = "encrypt" → 12 ≤ a.entropy.length)
    (heb : mode = "encrypt" → 12 ≤ b.entropy.length) :
    (runJob key inputDir outputDir mode job a).1 =
      (runJob key inputDir outputDir mode job b).1 := by
  unfold runJob
  by_cases hme : mode = "encrypt"
  · simp only [hme, if_true]
    exact encryptFile_result_congr a b job key inputDir outputDir hf hw hs (hea hme) (heb hme)
  · by_cases hmd : mode = "decrypt"
    · subst hmd
      simp only [show ¬ ("decrypt" = "encrypt") by decide, if_true, if_false]
      exact (decryptFile_congr a b job key inputDir outputDir hf hw hs).1
    · simp only [hme, hmd, if_false]

/-- One job draws at most one nonce. -/
theorem runJob_entropy (key : Bytes) (inputDir outputDir mode job : String) (w : World)
    (h : mode = "encrypt" → 12 ≤ w.entropy.length) :
    w.entropy.length ≤ (runJob key inputDir outputDir mode job w).2.entropy.length + 12 := by
  unfold runJob
  by_cases hme : mode = "encrypt"
  · simp only [hme, if_true]
    exact encryptFile_entropy job key inputDir outputDir w (h hme)
  · by_cases hmd : mode = "decrypt"
    · subst hmd
      simp only [show ¬ ("decrypt" = "encrypt") by decide, if_true, if_false]
      rw [(decryptFile_congr w w job key inputDir outputDir rfl rfl rfl).2.1]
      omega
    · simp only [hme, hmd, if_false]
      omega

/-! ## The worker loop -/

theorem worker_cons (job : String) (rest : List String) (key : Bytes)
    (inputDir outputDir mode : String) (w : World) :
    worker (job :: rest) key inputDir outputDir mode w =
      ((runJob key inputDir outputDir mode job w).1 ::
        (worker rest key inputDir outputDir mode (runJob key inputDir outputDir mode job w).2).1,
       (worker rest key inputDir outputDir mode
        (runJob key inputDir outputDir mode job w).2).2) := by
  simp [worker]

theorem worker_length (jobs : List String) (key : Bytes) (inputDir outputDir mode : String)
    (w : World) : (worker jobs key inputDir outputDir mode w).1.length = jobs.length := by
  induction jobs generalizing w with
  | nil => simp [worker]
  | cons job rest ih => simp [worker_cons, ih]

theorem worker_append (xs ys : List String) (key : Bytes) (inputDir outputDir mode : String)
    (w : World) :
    worker (xs ++ ys) key inputDir outputDir mode w =
      ((worker xs key inputDir outputDir mode w).1 ++
        (worker ys key inputDir outputDir mode (worker xs key inputDir outputDir mode w).2).1,
       (worker ys key inputDir outputDir mode
        (worker xs key inputDir outputDir mode w).2).2) := by
  induction xs generalizing w with
  | nil => simp [worker]
  | cons x xs ih => simp [worker_cons, ih]

/-- The results and the last world of a run, cut at job `i`. -/
theorem worker_split (jobs : List String) (key : Bytes) (inputDir outputDir mode : String)
    (w : World) (i : Nat) (hi : i < jobs.length) :
    worker jobs key inputDir outputDir mode w =
      ((worker (jobs.take i) key inputDir outputDir mode w).1 ++
        (runJob key inputDir outputDir mode jobs[i]
          (worldBefore jobs key inputDir outputDir mode w i)).1 ::
        (worker (jobs.drop (i + 1)) key inputDir outputDir mode
          (runJob key inputDir outputDir mode jobs[i]
            (worldBefore jobs key inputDir outputDir mode w i)).2).1,
       (worker (jobs.drop (i + 1)) key inputDir outputDir mode
          (runJob key inputDir outputDir mode jobs[i]
            (worldBefore jobs key inputDir outputDir mode w i)).2).2) := by
  have hsplit : jobs = jobs.take i ++ jobs[i] :: jobs.drop (i + 1) := by
    rw [← List.drop_eq_getElem_cons hi, List.take_append_drop]
  conv => lhs; rw [hsplit]
  rw [worker_append, worker_cons]
  rfl

/-- The run never removes a file. -/
theorem worker_files_isSome (jobs : List String) (key : Bytes)
    (inputDir outputDir mode : String) (w : World) (p : String)
    (h : (w.files p).isSome = true) :
    ((worker jobs key inputDir outputDir mode w).2.files p).isSome = true := by
  induction jobs generalizing w with
  | nil => simpa [worker] using h
  | cons job rest ih =>
    rw [worker_cons]
    apply ih
    rw [(runJob_effect key inputDir outputDir mode job w).2.2.2.2.1 p, h]
    rfl

/-- A file that no job of the list has as output path is left as it was. -/
theorem worker_files_other (jobs : List String) (key : Bytes) (inputDir outputDir mode : String)
    (w : World) (p : String) (h : ∀ j ∈ jobs, outputPath mode outputDir j ≠ p) :
    (worker jobs key inputDir outputDir mode w).2.files p = w.files p := by
  induction jobs generalizing w with
  | nil => simp [worker]
  | cons job rest ih =>
    rw [worker_cons]
    simp only
    rw [ih _ (fun j hj => h j (List.mem_cons_of_mem _ hj))]
    exact (runJob_effect key inputDir outputDir mode job w).2.2.2.1 p
      (Ne.symm (h job (List.mem_cons_self _ _)))

/-- The run leaves the outcomes of writing as they were. -/
theorem worker_writes (jobs : List String) (key : Bytes) (inputDir outputDir mode : String)
    (w : World) :
    (worker jobs key inputDir outputDir mode w).2.writable = w.writable ∧
    (worker jobs key inputDir outputDir mode w).2.shortWrite = w.shortWrite := by
  induction jobs generalizing w with
  | nil => simp [worker]
  | cons job rest ih =>
    rw [worker_cons]
    obtain ⟨h1, h2⟩ := ih (runJob key inputDir outputDir mode job w).2
    obtain ⟨h3, h4, _⟩ := runJob_effect key inputDir outputDir mode job w
    exact ⟨h1.trans h3, h2.trans h4⟩

/-- Jobs that do not read the file at `p` give the same results in two worlds
that agree but for that file, and leave such worlds. -/
theorem worker_agree (p : String) (jobs : List String) (key : Bytes)
    (inputDir outputDir mode : String) (a b : World) (h : AgreeOff p a b)
    (hjobs : ∀ j ∈ jobs, j ≠ p) :
    (worker jobs key inputDir outputDir mode a).1 =
      (worker jobs key inputDir outputDir mode b).1 ∧
    AgreeOff p (worker jobs key inputDir outputDir mode a).2
      (worker jobs key inputDir outputDir mode b).2 := by
  induction jobs generalizing a b with
  | nil => exact ⟨by simp [worker], by simpa [worker] using h⟩
  | cons job rest ih =>
    obtain ⟨hfiles, hw, hs, he⟩ := h
    have hjob := hjobs job (List.mem_cons_self _ _)
    obtain ⟨hres, hent, hafter⟩ := runJob_congr a b key inputDir outputDir mode job
      (hfiles job hjob) hw hs he
    obtain ⟨hwa, hsa, _⟩ := runJob_effect key inputDir outputDir mode job a
    obtain ⟨hwb, hsb, _⟩ := runJob_effect key inputDir outputDir mode job b
    have hnext : AgreeOff p (runJob key inputDir outputDir mode job a).2
        (runJob key inputDir outputDir mode job b).2 :=
      ⟨fun q hq => hafter q (hfiles q hq), by rw [hwa, hwb, hw], by rw [hsa, hsb, hs], hent⟩
    obtain ⟨h1, h2⟩ := ih _ _ hnext (fun j hj => hjobs j (List.mem_cons_of_mem _ hj))
    rw [worker_cons, worker_cons]
    exact ⟨by rw [hres, h1], h2⟩

/-- When no job of a list writes where another job of the list reads, and the
random source can deliver a nonce to each, every job has the result it has
when run alone in the first world, and the files there are at the end are
those there were and those the jobs opened for writing. -/
theorem worker_solo (w : World) (key : Bytes) (inputDir outputDir mode : String)
    (jobs : List String) (w2 : World)
    (hin : ∀ a ∈ jobs, w2.files a = w.files a)
    (hw : w2.writable = w.writable) (hs : w2.shortWrite = w.shortWrite)
    (hnodup : jobs.Nodup)
    (hio : ∀ a ∈ jobs, ∀ b ∈ jobs, a ≠ b → outputPath mode outputDir a ≠ b)
    (he0 : mode = "encrypt" → jobs ≠ [] → 12 ≤ w.entropy.length)
    (he : mode = "encrypt" → 12 * jobs.length ≤ w2.entropy.length) :
    (worker jobs key inputDir outputDir mode w2).1 =
      jobs.map (fun a => (runJob key inputDir outputDir mode a w).1) ∧
    ∀ q, ((worker jobs key inputDir outputDir mode w2).2.files q).isSome = true ↔
      ((w2.files q).isSome = true ∨ ∃ a ∈ jobs, q = outputPath mode outputDir a ∧
        reachedWrite (runJob key inputDir outputDir mode a w).1 = true ∧
        w.opens (outputPath mode outputDir a) = true) := by
  induction jobs generalizing w2 with
  | nil => simp [worker]
  | cons a rest ih =>
    have hres : (runJob key inputDir outputDir mode a w2).1 =
        (runJob key inputDir outputDir mode a w).1 := by
      apply runJob_result_congr w2 w key inputDir outputDir mode a
        (hin a (List.mem_cons_self _ _)) hw hs
      · intro hm
        have := he hm
        simp only [List.length_cons] at this
        omega
      · intro hm
        exact he0 hm (List.cons_ne_nil _ _)
    obtain ⟨hnotin, hnodup2⟩ := List.nodup_cons.mp hnodup
    obtain ⟨hw3, hs3, _, hoff, hex, _, _⟩ := runJob_effect key inputDir outputDir mode a w2
    have hent := runJob_entropy key inputDir outputDir mode a w2 (by
      intro hm
      have := he hm
      simp only [List.length_cons] at this
      omega)
    obtain ⟨ih1, ih2⟩ := ih (runJob key inputDir outputDir mode a w2).2
      (by
        intro b hb
        have hab : a ≠ b := fun h => hnotin (h ▸ hb)
        rw [hoff b (Ne.symm (hio a (List.mem_cons_self _ _) b (List.mem_cons_of_mem _ hb) hab))]
        exact hin b (List.mem_cons_of_mem _ hb))
      (hw3.trans hw) (hs3.trans hs) hnodup2
      (fun x hx y hy => hio x (List.mem_cons_of_mem _ hx) y (List.mem_cons_of_mem _ hy))
      (fun hm _ => he0 hm (List.cons_ne_nil _ _))
      (by
        intro hm
        have := he hm
        simp only [List.length_cons] at this
        omega)
    rw [worker_cons]
    refine ⟨by simp [hres, ih1], ?_⟩
    intro q
    have hopens : w2.opens (outputPath mode outputDir a) = w.opens (outputPath mode outputDir a) := by
      simp [World.opens, hw, hs]
    simp only [ih2 q, hex q, hres, hopens, List.mem_cons, Bool.or_eq_true, Bool.and_eq_true,
      decide_eq_true_eq]
    constructor
    · rintro ((h | ⟨⟨h1, h2⟩, h3⟩) | ⟨b, hb, h⟩)
      · exact Or.inl h
      · exact Or.inr ⟨a, Or.inl rfl, h1, h2, h3⟩
      · exact Or.inr ⟨b, Or.inr hb, h⟩
    · rintro (h | ⟨b, rfl | hb, h1, h2, h3⟩)
      · exact Or.inl (Or.inl h)
      · exact Or.inl (Or.inr ⟨⟨h1, h2⟩, h3⟩)
      · exact Or.inr ⟨b, hb, h1, h2, h3⟩

/-! ## The trace of a run -/

theorem World.extends_refl (w : World) : w.Extends w := ⟨[], by simp⟩

theorem World.extends_trans {a b c : World} (h1 : a.Extends b) (h2 : b.Extends c) :
    a.Extends c := by
  obtain ⟨e1, h1⟩ := h1
  obtain ⟨e2, h2⟩ := h2
  exact ⟨e1 ++ e2, by rw [h2, h1, List.append_assoc]⟩

theorem World.extends_log (w : World) (e : Event) : w.Extends (w.log e) := ⟨[e], rfl⟩

theorem World.log_trace (w : World) (e : Event) : (w.log e).trace = w.trace ++ [e] := rfl

theorem encryptFile_extends (f : String) (key : Bytes) (inputDir outputDir : String)
    (w : World) : w.Extends (encryptFile f key inputDir outputDir w).2 := by
  unfold encryptFile os.ReadFile World.Extends
  cases w.files f with
  | none => simp [World.log]
  | some plaintext =>
    cases aes.NewCipher key with
    | error e => simp [World.log]
    | ok block =>
      by_cases hE : 12 ≤ w.entropy.length
      · by_cases hw : w.writable (encryptOutputPath outputDir f) = true
        · simp [cipher.NewGCM_eq, rand.ReadFull, cipher.GCM.NonceSize,
            cipher.gcmStandardNonceSize, World.log, hE, os.WriteFile, hw, World.print]
        · cases hs : w.shortWrite (encryptOutputPath outputDir f) <;>
            simp [cipher.NewGCM_eq, rand.ReadFull, cipher.GCM.NonceSize,
              cipher.gcmStandardNonceSize, World.log, hE, os.WriteFile, hw, hs]
      · simp [cipher.NewGCM_eq, rand.ReadFull, cipher.GCM.NonceSize,
          cipher.gcmStandardNonceSize, World.log, hE]

theorem decryptFile_extends (f : String) (key : Bytes) (inputDir outputDir : String)
    (w : World) : w.Extends (decryptFile f key inputDir outputDir w).2 := by
  unfold decryptFile os.ReadFile World.Extends
  cases w.files f with
  | none => simp [World.log]
  | some blob =>
    cases aes.NewCipher key with
    | error e => simp [World.log]
    | ok block =>
      by_cases hlen : blob.length < 12
      · simp [cipher.NewGCM_eq, cipher.GCM.NonceSize, cipher.gcmStandardNonceSize, hlen,
          World.log]
      · simp only [cipher.NewGCM_eq, cipher.GCM.NonceSize, cipher.gcmStandardNonceSize, hlen,
          if_false]
        cases cipher.GCM.Open { cipher := block } [] (List.take 12 blob) (List.drop 12 blob)
            [] with
        | error e => simp [World.log]
        | ok plaintext =>
          by_cases hw : w.writable (decryptOutputPath outputDir f) = true
          · simp [World.log, os.WriteFile, hw, World.print]
          · cases hs : w.shortWrite (decryptOutputPath outputDir f) <;>
              simp [World.log, os.WriteFile, hw, hs]

theorem runJob_extends (key : Bytes) (inputDir outputDir mode job : String) (w : World) :
    w.Extends (runJob key inputDir outputDir mode job w).2 := by
  unfold runJob
  by_cases he : mode = "encrypt"
  · simp only [he, if_true]
    exact encryptFile_extends job key inputDir outputDir w
  · by_cases hd : mode = "decrypt"
    · simp only [he, hd, if_true, if_false]
      exact decryptFile_extends job key inputDir outputDir w
    · simp only [he, hd, if_false]
      exact World.extends_refl w

theorem worker_extends (jobs : List String) (key : Bytes) (inputDir outputDir mode : String)
    (w : World) : w.Extends (worker jobs key inputDir outputDir mode w).2 := by
  induction jobs generalizing w with
  | nil => exact World.extends_refl w
  | cons job rest ih =>
    rw [worker_cons]
    exact World.extends_trans (runJob_extends key inputDir outputDir mode job w) (ih _)

theorem printErrors_extends (results : List (Option Err)) (w : World) :
    w.Extends (printErrors results w) := by
  unfold printErrors
  induction results generalizing w with
  | nil => exact World.extends_refl w
  | cons r rs ih =>
    simp only [List.foldl_cons]
    cases r with
    | none => exact ih w
    | some err => exact World.extends_trans (World.extends_log w _) (ih _)

/-- A call of `encryptFile` that returns no error has stored its output. -/
theorem encryptFile_success_isSome (f : String) (key : Bytes) (inputDir outputDir : String)
    (w : World) (h : (encryptFile f key inputDir outputDir w).1 = none) :
    ((encryptFile f key inputDir outputDir w).2.files (encryptOutputPath outputDir f)).isSome =
      true := by
  obtain ⟨_, _, _, _, hex, hwr, _⟩ := encryptFile_effect f key inputDir outputDir w
  rw [hex]
  simp [h, reachedWrite, World.opens, hwr h]

/-- A call of `decryptFile` that returns no error has stored its output. -/
theorem decryptFile_success_isSome (f : String) (key : Bytes) (inputDir outputDir : String)
    (w : World) (h : (decryptFile f key inputDir outputDir w).1 = none) :
    ((decryptFile f key inputDir outputDir w).2.files (decryptOutputPath outputDir f)).isSome =
      true := by
  obtain ⟨_, _, _, _, hex, hwr, _⟩ := decryptFile_effect f key inputDir outputDir w
  rw [hex]
  simp [h, reachedWrite, World.opens, hwr h]

/-- C8 (an invalid mode is a per-task error).  For every mode other than
"encrypt" and "decrypt" and every list of jobs, the worker publishes for each
job the invalid-mode error naming that mode and leaves the world exactly as
it was: the loop runs to the end, no file is read and none is written. -/
theorem worker_invalid_mode (jobs : List String) (key : Bytes)
    (inputDir outputDir mode : String) (w : World)
    (he : mode ≠ "encrypt") (hd : mode ≠ "decrypt") :
    worker jobs key inputDir outputDir mode w =
      (jobs.map (fun _ => some (Err.invalidMode mode)), w) := by
  induction jobs with
  | nil => simp [worker]
  | cons job rest ih =>
    rw [worker_cons]
    simp [runJob, he, hd, ih]

theorem entryName_append_enc {name : String} (h : IsEntryName name) :
    filepath.IsElement (name ++ ".enc").data := by
  obtain ⟨h1, h2, _, _⟩ := h
  have hlen : 4 ≤ (name ++ ".enc").data.length := by
    simp [String.data_append]
  refine ⟨?_, ?_, ?_, ?_⟩
  · intro h0
    rw [h0] at hlen
    simp at hlen
  · simp only [String.data_append, List.mem_append, not_or]
    exact ⟨h2, by decide⟩
  · intro h0
    rw [h0] at hlen
    simp at hlen
  · intro h0
    rw [h0] at hlen
    simp at hlen

/-- C4 (naming round trip).  For every path `f = Join(dir, name)` that the
directory listing returns for an entry `name`, and all output directories
`out1` and `out2`: the base name of `f` is `name`, the output path of
`encryptFile` is `Join(out1, name + ".enc")`, stripping the suffix from the
base name of that path recovers `name`, and the output path of `decryptFile`
applied to it is `Join(out2, name)`, whatever `dir`; each of the two functions
stores its output there when it succeeds, and touches no other file. -/
theorem naming_round_trip (dir name out1 out2 : String) (hname : IsEntryName name) :
    filepath.Base (filepath.Join [dir, name]) = name ∧
    encryptOutputPath out1 (filepath.Join [dir, name]) = filepath.Join [out1, name ++ ".enc"] ∧
    strings.TrimSuffix (filepath.Base (encryptOutputPath out1 (filepath.Join [dir, name])))
      ".enc" = name ∧
    decryptOutputPath out2 (encryptOutputPath out1 (filepath.Join [dir, name])) =
      filepath.Join [out2, name] ∧
    (∀ (key : Bytes) (inputDir : String) (w : World),
      ((encryptFile (filepath.Join [dir, name]) key inputDir out1 w).1 = none →
        ((encryptFile (filepath.Join [dir, name]) key inputDir out1 w).2.files
          (filepath.Join [out1, name ++ ".enc"])).isSome = true) ∧
      ∀ p, p ≠ filepath.Join [out1, name ++ ".enc"] →
        (encryptFile (filepath.Join [dir, name]) key inputDir out1 w).2.files p = w.files p) ∧
    (∀ (key : Bytes) (inputDir : String) (w : World),
      ((decryptFile (filepath.Join [out1, name ++ ".enc"]) key inputDir out2 w).1 = none →
        ((decryptFile (filepath.Join [out1, name ++ ".enc"]) key inputDir out2 w).2.files
          (filepath.Join [out2, name])).isSome = true) ∧
      ∀ p, p ≠ filepath.Join [out2, name] →
        (decryptFile (filepath.Join [out1, name ++ ".enc"]) key inputDir out2 w).2.files p =
          w.files p) := by
  have hbase : filepath.Base (filepath.Join [dir, name]) = name :=
    filepath.Base_Join dir name (filepath.isElement_of_entryName hname)
  have henc : encryptOutputPath out1 (filepath.Join [dir, name]) =
      filepath.Join [out1, name ++ ".enc"] := by
    simp [encryptOutputPath, hbase]
  have hbase2 : filepath.Base (filepath.Join [out1, name ++ ".enc"]) = name ++ ".enc" :=
    filepath.Base_Join out1 (name ++ ".enc") (entryName_append_enc hname)
  have hdec : decryptOutputPath out2 (filepath.Join [out1, name ++ ".enc"]) =
      filepath.Join [out2, name] := by
    simp [decryptOutputPath, hbase2, strings.TrimSuffix_append]
  refine ⟨hbase, henc, ?_, ?_, ?_, ?_⟩
  · rw [henc, hbase2, strings.TrimSuffix_append]
  · rw [henc, hdec]
  · intro key inputDir w
    rw [← henc]
    exact ⟨encryptFile_success_isSome _ key inputDir out1 w,
      (encryptFile_effect _ key inputDir out1 w).2.2.2.1⟩
  · intro key inputDir w
    rw [← hdec]
    exact ⟨decryptFile_success_isSome _ key inputDir out2 w,
      (decryptFile_effect _ key inputDir out2 w).2.2.2.1⟩

/-- The naming round trip of C4 on the entry `a.txt` of the directory `in`. -/
theorem naming_round_trip_witness :
    IsEntryName "a.txt" ∧
    filepath.Base (filepath.Join ["in", "a.txt"]) = "a.txt" ∧
    decryptOutputPath "dec" (encryptOutputPath "out" (filepath.Join ["in", "a.txt"])) =
      filepath.Join ["dec", "a.txt"] :=
  have h : IsEntryName "a.txt" := ⟨by decide, by decide, by decide, by decide⟩
  ⟨h, (naming_round_trip "in" "a.txt" "out" "dec" h).1,
    (naming_round_trip "in" "a.txt" "out" "dec" h).2.2.2.1⟩

/-- The output path of `decryptFile` for a listed file ends with the base name
without its suffix, whenever what is left of the name is a real element. -/
theorem decryptOutputPath_base (outputDir dir name : String) (hname : IsEntryName name)
    (hrest : filepath.IsElement (strings.TrimSuffix name ".enc").data) :
    filepath.Base (decryptOutputPath outputDir (filepath.Join [dir, name])) =
      strings.TrimSuffix name ".enc" := by
  unfold decryptOutputPath
  rw [filepath.Base_Join dir name (filepath.isElement_of_entryName hname)]
  exact filepath.Base_Join outputDir _ hrest

/-- C7 (decrypt output naming), a failing input.  The directory entry `...enc`
is listed as `in/...enc`; its base name without the suffix is `..`, and the
output path of `decryptFile` for the output directory `out` is `.`, the
parent of the output directory and not a file inside it.  The entries `.enc`
and `..enc` give the output directory itself. -/
theorem decryptOutputPath_leaves_outputDir :
    IsEntryName "...enc" ∧
    filepath.Join ["in", "...enc"] = "in/...enc" ∧
    strings.TrimSuffix (filepath.Base "in/...enc") ".enc" = ".." ∧
    decryptOutputPath "out" "in/...enc" = "." ∧
    decryptOutputPath "out" "in/.enc" = "out" ∧
    decryptOutputPath "out" "in/..enc" = "out" :=
  ⟨⟨by decide, by decide, by decide, by decide⟩, by decide, by decide, by decide, by decide,
    by decide⟩

/-- C5, as amended (one result per task, failure isolation).  In the
sequential model of the worker loop, for every list of `n` jobs the worker
publishes exactly `n` results.  The `i`-th is the outcome of the transform of
the mode on job `i` alone, run in the world the earlier jobs left, and the
loop then goes on with the jobs after it, be that outcome an error or not.
Job `i`, and so a job that returns an error, changes no file but the one at
its own output path, and no outcome of writing.  When none of the jobs after
it reads the file at that path, these jobs have the results, and leave every
other file, as they do when run from the world before job `i` with only the
random source advanced past what job `i` drew. -/
theorem worker_failure_isolation (jobs : List String) (key : Bytes)
    (inputDir outputDir mode : String) (w : World) :
    (worker jobs key inputDir outputDir mode w).1.length = jobs.length ∧
    ∀ (i : Nat) (hi : i < jobs.length),
      (worker jobs key inputDir outputDir mode w).1[i]? =
        some (runJob key inputDir outputDir mode jobs[i]
          (worldBefore jobs key inputDir outputDir mode w i)).1 ∧
      (worker jobs key inputDir outputDir mode w).1 =
        (worker (jobs.take i) key inputDir outputDir mode w).1 ++
          (runJob key inputDir outputDir mode jobs[i]
            (worldBefore jobs key inputDir outputDir mode w i)).1 ::
          (worker (jobs.drop (i + 1)) key inputDir outputDir mode
            (runJob key inputDir outputDir mode jobs[i]
              (worldBefore jobs key inputDir outputDir mode w i)).2).1 ∧
      (∀ q, q ≠ outputPath mode outputDir jobs[i] →
        (runJob key inputDir outputDir mode jobs[i]
          (worldBefore jobs key inputDir outputDir mode w i)).2.files q =
          (worldBefore jobs key inputDir outputDir mode w i).files q) ∧
      (runJob key inputDir outputDir mode jobs[i]
          (worldBefore jobs key inputDir outputDir mode w i)).2.writable =
        (worldBefore jobs key inputDir outputDir mode w i).writable ∧
      (runJob key inputDir outputDir mode jobs[i]
          (worldBefore jobs key inputDir outputDir mode w i)).2.shortWrite =
        (worldBefore jobs key inputDir outputDir mode w i).shortWrite ∧
      ((∀ b ∈ jobs.drop (i + 1), b ≠ outputPath mode outputDir jobs[i]) →
        (worker (jobs.drop (i + 1)) key inputDir outputDir mode
            (runJob key inputDir outputDir mode jobs[i]
              (worldBefore jobs key inputDir outputDir mode w i)).2).1 =
          (worker (jobs.drop (i + 1)) key inputDir outputDir mode
            ((worldBefore jobs key inputDir outputDir mode w i).withEntropy
              (runJob key inputDir outputDir mode jobs[i]
                (worldBefore jobs key inputDir outputDir mode w i)).2.entropy)).1 ∧
        ∀ q, q ≠ outputPath mode outputDir jobs[i] →
          (worker (jobs.drop (i + 1)) key inputDir outputDir mode
            (runJob key inputDir outputDir mode jobs[i]
              (worldBefore jobs key inputDir outputDir mode w i)).2).2.files q =
          (worker (jobs.drop (i + 1)) key inputDir outputDir mode
            ((worldBefore jobs key inputDir outputDir mode w i).withEntropy
              (runJob key inputDir outputDir mode jobs[i]
                (worldBefore jobs key inputDir outputDir mode w i)).2.entropy)).2.files q) := by
  refine ⟨worker_length jobs key inputDir outputDir mode w, ?_⟩
  intro i hi
  have hsplit := worker_split jobs key inputDir outputDir mode w i hi
  obtain ⟨hw, hs, _, hoff, _, _, _⟩ := runJob_effect key inputDir outputDir mode jobs[i]
    (worldBefore jobs key inputDir outputDir mode w i)
  refine ⟨?_, ?_, hoff, hw, hs, ?_⟩
  · rw [hsplit]
    have hlen : (worker (jobs.take i) key inputDir outputDir mode w).1.length = i := by
      rw [worker_length, List.length_take]
      omega
    simp only
    rw [List.getElem?_append_right (by omega), hlen]
    simp
  · rw [hsplit]
  · intro hlater
    have hagree : AgreeOff (outputPath mode outputDir jobs[i])
        (runJob key inputDir outputDir mode jobs[i]
          (worldBefore jobs key inputDir outputDir mode w i)).2
        ((worldBefore jobs key inputDir outputDir mode w i).withEntropy
          (runJob key inputDir outputDir mode jobs[i]
            (worldBefore jobs key inputDir outputDir mode w i)).2.entropy) :=
      ⟨fun q hq => by rw [hoff q hq]; rfl, by rw [hw]; rfl, by rw [hs]; rfl, rfl⟩
    obtain ⟨h1, h2, _⟩ := worker_agree (outputPath mode outputDir jobs[i]) (jobs.drop (i + 1))
      key inputDir outputDir mode _ _ hagree hlater
    exact ⟨h1, h2⟩

/-- C6, as amended (final state matches the results).  After a run over any
list of input files: the output path of every file whose task returned
success exists; and for a file whose output path did not exist before the
run, is the output path of no other file of the run, and is not a path where
a write fails after the file was opened, the output path exists if and only
if the task of the file returned success. -/
theorem output_exists_iff_success (jobs : List String) (key : Bytes)
    (inputDir outputDir mode : String) (w : World) (i : Nat) (hi : i < jobs.length) :
    ((worker jobs key inputDir outputDir mode w).1[i]? = some none →
      ((worker jobs key inputDir outputDir mode w).2.files
        (outputPath mode outputDir jobs[i])).isSome = true) ∧
    (w.files (outputPath mode outputDir jobs[i]) = none →
      (∀ (j : Nat) (hj : j < jobs.length), j ≠ i →
        outputPath mode outputDir jobs[j] ≠ outputPath mode outputDir jobs[i]) →
      (w.writable (outputPath mode outputDir jobs[i]) = false →
        w.shortWrite (outputPath mode outputDir jobs[i]) = none) →
      (((worker jobs key inputDir outputDir mode w).2.files
          (outputPath mode outputDir jobs[i])).isSome = true ↔
        (worker jobs key inputDir outputDir mode w).1[i]? = some none)) := by
  have hsplit := worker_split jobs key inputDir outputDir mode w i hi
  have hlen : (worker (jobs.take i) key inputDir outputDir mode w).1.length = i := by
    rw [worker_length, List.length_take]
    omega
  have hres : (worker jobs key inputDir outputDir mode w).1[i]? =
      some (runJob key inputDir outputDir mode jobs[i]
        (worldBefore jobs key inputDir outputDir mode w i)).1 := by
    rw [hsplit]
    simp only
    rw [List.getElem?_append_right (by omega), hlen]
    simp
  have hfinal : (worker jobs key inputDir outputDir mode w).2 =
      (worker (jobs.drop (i + 1)) key inputDir outputDir mode
        (runJob key inputDir outputDir mode jobs[i]
          (worldBefore jobs key inputDir outputDir mode w i)).2).2 := by
    rw [hsplit]
  obtain ⟨_, _, _, _, hex, hwr, hreach⟩ := runJob_effect key inputDir outputDir mode jobs[i]
    (worldBefore jobs key inputDir outputDir mode w i)
  have hsuccess : (runJob key inputDir outputDir mode jobs[i]
        (worldBefore jobs key inputDir outputDir mode w i)).1 = none →
      ((worker jobs key inputDir outputDir mode w).2.files
        (outputPath mode outputDir jobs[i])).isSome = true := by
    intro hnone
    rw [hfinal]
    apply worker_files_isSome
    rw [hex]
    simp [hnone, reachedWrite, World.opens, hwr hnone]
  constructor
  · intro h
    rw [hres] at h
    exact hsuccess (Option.some.inj h)
  · intro habsent hdistinct hcomplete
    rw [hres]
    constructor
    · intro hthere
      by_contra hfail
      have hfail2 : (runJob key inputDir outputDir mode jobs[i]
          (worldBefore jobs key inputDir outputDir mode w i)).1 ≠ none :=
        fun h => hfail (by rw [h])
      have hbefore : (worldBefore jobs key inputDir outputDir mode w i).files
          (outputPath mode outputDir jobs[i]) = none := by
        unfold worldBefore
        rw [worker_files_other _ _ _ _ _ _ _ (by
          intro j hj
          obtain ⟨k, hk, rfl⟩ := List.getElem_of_mem hj
          have hk2 : k < i ∧ k < jobs.length := by
            rw [List.length_take] at hk
            omega
          rw [List.getElem_take]
          exact hdistinct k hk2.2 (by omega))]
        exact habsent
      have hwrites := worker_writes (jobs.take i) key inputDir outputDir mode w
      have hnot : (reachedWrite (runJob key inputDir outputDir mode jobs[i]
            (worldBefore jobs key inputDir outputDir mode w i)).1 &&
          (worldBefore jobs key inputDir outputDir mode w i).opens
            (outputPath mode outputDir jobs[i])) = false := by
        cases hwr2 : w.writable (outputPath mode outputDir jobs[i]) with
        | true =>
          have hreached : reachedWrite (runJob key inputDir outputDir mode jobs[i]
              (worldBefore jobs key inputDir outputDir mode w i)).1 = false := by
            cases hr : reachedWrite (runJob key inputDir outputDir mode jobs[i]
                (worldBefore jobs key inputDir outputDir mode w i)).1 with
            | false => rfl
            | true =>
              exact absurd (hreach hr (by
                show (worker (jobs.take i) key inputDir outputDir mode w).2.writable _ = true
                rw [hwrites.1]
                exact hwr2)) hfail2
          rw [hreached]
          rfl
        | false =>
          have hopens : (worldBefore jobs key inputDir outputDir mode w i).opens
              (outputPath mode outputDir jobs[i]) = false := by
            show (worker (jobs.take i) key inputDir outputDir mode w).2.opens _ = false
            simp [World.opens, hwrites.1, hwrites.2, hwr2, hcomplete hwr2]
          rw [hopens, Bool.and_false]
      rw [hfinal, worker_files_other _ _ _ _ _ _ _ (by
        intro j hj
        obtain ⟨k, hk, rfl⟩ := List.getElem_of_mem hj
        rw [List.length_drop] at hk
        rw [List.getElem_drop]
        exact hdistinct (i + 1 + k) (by omega) (by omega)), hex, hbefore] at hthere
      simp [hnot] at hthere
    · intro h
      exact hsuccess (Option.some.inj h)

/-- C10, as amended (worker-count independence).  Take the jobs of a run in
any two orders, as any number of workers may.  When the jobs are distinct,
no job writes where another job of the run reads, and in mode "encrypt" the
random source can deliver a nonce to every job, each job has in both orders
the result it has when run alone in the first world, and the same paths hold
a file at the end.  And `main` prints its line of completion last, after
everything the worker did and after the report of the errors. -/
theorem pool_order_independence (jobs jobs2 : List String) (key : Bytes)
    (inputDir outputDir mode : String) (w : World) :
    (jobs.Perm jobs2 → jobs.Nodup →
      (∀ a ∈ jobs, ∀ b ∈ jobs, a ≠ b → outputPath mode outputDir a ≠ b) →
      (mode = "encrypt" → 12 * jobs.length ≤ w.entropy.length) →
      (worker jobs key inputDir outputDir mode w).1 =
          jobs.map (fun a => (runJob key inputDir outputDir mode a w).1) ∧
        (worker jobs2 key inputDir outputDir mode w).1 =
          jobs2.map (fun a => (runJob key inputDir outputDir mode a w).1) ∧
        ∀ q, ((worker jobs key inputDir outputDir mode w).2.files q).isSome =
          ((worker jobs2 key inputDir outputDir mode w).2.files q).isSome) ∧
    (∀ (hexKey : String) (files : List String),
      inputDir ≠ "" → outputDir ≠ "" → hexKey ≠ "" →
      (hex.DecodeString hexKey).2 = none → (hex.DecodeString hexKey).1.length = 32 →
      w.listing (filepath.Join [inputDir, "*"]) = .ok files →
      ∃ evs, (main inputDir outputDir hexKey mode w).trace =
        (worker files (hex.DecodeString hexKey).1 inputDir outputDir mode
          (w.log (.glob (filepath.Join [inputDir, "*"])))).2.trace ++ evs ++
          [Event.stdout (mode ++ " complete!\n")]) := by
  constructor
  · intro hperm hnodup hio hrand
    have he0 : ∀ (l : List String), l.length = jobs.length → mode = "encrypt" → l ≠ [] →
        12 ≤ w.entropy.length := by
      intro l hl hm hne
      have h1 := hrand hm
      have h2 : 0 < l.length := List.length_pos.mpr hne
      omega
    obtain ⟨h1, h2⟩ := worker_solo w key inputDir outputDir mode jobs w (fun _ _ => rfl) rfl rfl
      hnodup hio (he0 jobs rfl) hrand
    obtain ⟨h3, h4⟩ := worker_solo w key inputDir outputDir mode jobs2 w (fun _ _ => rfl) rfl rfl
      (hperm.nodup_iff.mp hnodup)
      (fun a ha b hb => hio a (hperm.mem_iff.mpr ha) b (hperm.mem_iff.mpr hb))
      (he0 jobs2 hperm.length_eq.symm)
      (fun hm => by rw [← hperm.length_eq]; exact hrand hm)
    refine ⟨h1, h3, ?_⟩
    intro q
    rw [Bool.eq_iff_iff, h2 q, h4 q]
    constructor
    · rintro (h | ⟨a, ha, h⟩)
      · exact Or.inl h
      · exact Or.inr ⟨a, hperm.mem_iff.mp ha, h⟩
    · rintro (h | ⟨a, ha, h⟩)
      · exact Or.inl h
      · exact Or.inr ⟨a, hperm.mem_iff.mpr ha, h⟩
  · intro hexKey files hin hout hkey hdec hlen hfiles
    have hguard : ¬ (inputDir = "" ∨ outputDir = "" ∨ hexKey = "") := by
      simp [hin, hout, hkey]
    have hvalid : ¬ ((hex.DecodeString hexKey).2 ≠ none ∨
        (hex.DecodeString hexKey).1.length ≠ 32) := by
      simp [hdec, hlen]
    obtain ⟨evs, hevs⟩ := printErrors_extends
      (worker files (hex.DecodeString hexKey).1 inputDir outputDir mode
        (w.log (.glob (filepath.Join [inputDir, "*"])))).1
      (worker files (hex.DecodeString hexKey).1 inputDir outputDir mode
        (w.log (.glob (filepath.Join [inputDir, "*"])))).2
    refine ⟨evs, ?_⟩
    simp only [main, hguard, if_false, hvalid, filepath.Glob, hfiles, World.print]
    rw [World.log_trace, hevs]

/-- C9, as amended (key-length validation).  When the input directory, the
output directory and the key argument are all non-empty, the run proceeds to
listing the directory (and, when the listing succeeds, to processing its
files) if and only if the key argument hex-decodes without error to exactly 32
bytes; for every other such key `main` prints the invalid-key message and
does nothing else: the directory is not listed and no file is read or
written. -/
theorem main_key_validation (inputDir outputDir key mode : String) (w : World)
    (hin : inputDir ≠ "") (hout : outputDir ≠ "") (hkey : key ≠ "") :
    ((∃ rest, (main inputDir outputDir key mode w).trace =
          w.trace ++ Event.glob (filepath.Join [inputDir, "*"]) :: rest) ↔
      ((hex.DecodeString key).2 = none ∧ (hex.DecodeString key).1.length = 32)) ∧
    (((hex.DecodeString key).2 = none ∧ (hex.DecodeString key).1.length = 32) →
      ∀ files, w.listing (filepath.Join [inputDir, "*"]) = .ok files →
        main inputDir outputDir key mode w =
          (printErrors
            (worker files (hex.DecodeString key).1 inputDir outputDir mode
              (w.log (.glob (filepath.Join [inputDir, "*"])))).1
            (worker files (hex.DecodeString key).1 inputDir outputDir mode
              (w.log (.glob (filepath.Join [inputDir, "*"])))).2).print
            (mode ++ " complete!\n")) ∧
    (¬ ((hex.DecodeString key).2 = none ∧ (hex.DecodeString key).1.length = 32) →
      main inputDir outputDir key mode w = w.print invalidKeyMessage) := by
  have hguard : ¬ (inputDir = "" ∨ outputDir = "" ∨ key = "") := by
    simp [hin, hout, hkey]
  have hinvalid : ¬ ((hex.DecodeString key).2 = none ∧ (hex.DecodeString key).1.length = 32) →
      main inputDir outputDir key mode w = w.print invalidKeyMessage := by
    intro hinv
    have hcond : (hex.DecodeString key).2 ≠ none ∨ (hex.DecodeString key).1.length ≠ 32 := by
      by_cases h2 : (hex.DecodeString key).2 = none
      · exact Or.inr (fun h1 => hinv ⟨h2, h1⟩)
      · exact Or.inl h2
    simp only [main, hguard, if_false, hcond, if_true]
  have hvalid : ((hex.DecodeString key).2 = none ∧ (hex.DecodeString key).1.length = 32) →
      ¬ ((hex.DecodeString key).2 ≠ none ∨ (hex.DecodeString key).1.length ≠ 32) := by
    intro h hc
    rcases hc with hc | hc
    · exact hc h.1
    · exact hc h.2
  refine ⟨⟨?_, ?_⟩, ?_, hinvalid⟩
  · intro hrun
    by_contra hinv
    obtain ⟨rest, hrest⟩ := hrun
    rw [hinvalid hinv] at hrest
    simp [World.print, World.log] at hrest
  · intro hv
    simp only [main, hguard, if_false, hvalid hv, filepath.Glob]
    cases w.listing (filepath.Join [inputDir, "*"]) with
    | error e =>
      refine ⟨[Event.stdout ("Error reading input directory: " ++ e ++ "\n")], ?_⟩
      simp [World.print, World.log]
    | ok files =>
      obtain ⟨evs, hevs⟩ := World.extends_trans
        (World.extends_trans
          (worker_extends files (hex.DecodeString key).1 inputDir outputDir mode
            (w.log (.glob (filepath.Join [inputDir, "*"]))))
          (printErrors_extends _ _))
        (World.extends_log _ (.stdout (mode ++ " complete!\n")))
      refine ⟨evs, ?_⟩
      simp only [World.print]
      rw [hevs]
      simp [World.log]
  · intro hv files hfiles
    simp only [main, hguard, if_false, hvalid hv, filepath.Glob, hfiles]

/-! ## The statements at concrete inputs -/

set_option maxRecDepth 100000

/-- The model agrees with the example vector of FIPS-197, appendix C.3
(AES-256). -/
theorem aes256_example_vector :
    aes.Block.Encrypt { enc := aes.expandKey (List.range 32) }
      [0x00, 0x11, 0x22, 0x33, 0x44, 0x55, 0x66, 0x77, 0x88, 0x99, 0xaa, 0xbb, 0xcc, 0xdd, 0xee,
        0xff] =
      [0x8e, 0xa2, 0xb7, 0xca, 0x51, 0x67, 0x45, 0xbf, 0xea, 0xfc, 0x49, 0x90, 0x4b, 0x49, 0x60,
        0x89] := by
  decide

/-- The model agrees with test case 13 of the GCM specification: the zero
key of 256 bits, the zero nonce, the empty plaintext. -/
theorem gcm_test_case_13 :
    cipher.GCM.Seal { cipher := { enc := aes.expandKey exampleKey } } (List.replicate 12 0)
      (List.replicate 12 0) [] [] = sealedEmpty := by
  decide

theorem toOption_eq_none {α : Type} {x : Except String α} (h : x.toOption = none) :
    ∃ e, x = .error e := by
  cases x with
  | error e => exact ⟨e, rfl⟩
  | ok a => simp [Except.toOption] at h

/-- The round trip of C1 on a file of two bytes: it is encrypted into `out`
and the result decrypted into `dec`. -/
theorem encrypt_decrypt_round_trip_witness :
    exampleKey.length = 32 ∧ (List.range 12).length = 12 ∧
    exampleWorld.files "in/a.txt" = some [104, 105] ∧
    exampleWorld.entropy = List.range 12 ++ [7, 7] ∧
    exampleWorld.writable (encryptOutputPath "out" "in/a.txt") = true ∧
    (encryptFile "in/a.txt" exampleKey "in" "out" exampleWorld).1 = none ∧
    (decryptFile (encryptOutputPath "out" "in/a.txt") exampleKey "out" "dec"
      (encryptFile "in/a.txt" exampleKey "in" "out" exampleWorld).2).1 = none ∧
    (decryptFile (encryptOutputPath "out" "in/a.txt") exampleKey "out" "dec"
      (encryptFile "in/a.txt" exampleKey "in" "out" exampleWorld).2).2.files
        (decryptOutputPath "dec" (encryptOutputPath "out" "in/a.txt")) = some [104, 105] := by
  obtain ⟨block, gcm, _, _, h1, h2, _, _, h5⟩ :=
    encrypt_decrypt_round_trip exampleKey (List.range 12) [7, 7] [104, 105] "in/a.txt" "in"
      "out" exampleWorld (by decide) (by decide) (by decide) rfl rfl
  have hw : (encryptFile "in/a.txt" exampleKey "in" "out" exampleWorld).2.writable
      (decryptOutputPath "dec" (encryptOutputPath "out" "in/a.txt")) = true := by
    rw [(encryptFile_effect "in/a.txt" exampleKey "in" "out" exampleWorld).1]
    rfl
  have h6 := h5 (encryptOutputPath "out" "in/a.txt") "out" "dec" _ h2 hw
  exact ⟨by decide, by decide, by decide, rfl, rfl, h1, h6.1, h6.2⟩

/-- The failure of C2 on a blob whose tag has one bit flipped. -/
theorem decryptFile_auth_failure_witness :
    decryptWorld.files "in/t.enc" = some tamperedBlob ∧ 12 ≤ tamperedBlob.length ∧
    (decryptFile "in/t.enc" exampleKey "in" "out" decryptWorld).1 ≠ none ∧
    (decryptFile "in/t.enc" exampleKey "in" "out" decryptWorld).2 =
      decryptWorld.log (.readFile "in/t.enc") ∧
    (decryptFile "in/t.enc" exampleKey "in" "out" decryptWorld).2.files = decryptWorld.files := by
  have hfail : ∀ block gcm, aes.NewCipher exampleKey = .ok block →
      cipher.NewGCM block = .ok gcm →
      ∃ e, gcm.Open [] (tamperedBlob.take 12) (tamperedBlob.drop 12) [] = .error e := by
    intro block gcm hb hg
    have hb2 : block = { enc := aes.expandKey exampleKey } := by
      rw [NewCipher_of_length exampleKey (by decide)] at hb
      exact (Except.ok.inj hb).symm
    have hg2 : gcm = { cipher := block } := by
      rw [cipher.NewGCM_eq] at hg
      exact (Except.ok.inj hg).symm
    subst hg2 hb2
    exact toOption_eq_none (by decide)
  exact ⟨by decide, by decide,
    decryptFile_auth_failure exampleKey tamperedBlob "in/t.enc" "in" "out" decryptWorld
      (by decide) (by decide) hfail⟩

/-- The rejection of C3 on a file of three bytes. -/
theorem decryptFile_short_input_witness :
    (∃ block, aes.NewCipher exampleKey = .ok block) ∧
    decryptWorld.files "in/a" = some [1, 2, 3] ∧
    decryptFile "in/a" exampleKey "in" "out" decryptWorld =
      (some (.tooShort "in/a"), decryptWorld.log (.readFile "in/a")) :=
  have hk : ∃ block, aes.NewCipher exampleKey = .ok block :=
    ⟨_, NewCipher_of_length exampleKey (by decide)⟩
  ⟨hk, by decide,
    (decryptFile_short_input exampleKey [1, 2, 3] "in/a" "in" "out" decryptWorld hk
      (by decide)).1 (by decide)⟩

/-- C5 fails as stated, on two runs.  In `tornWorld`, in mode "decrypt" with
the directory `d` read and written, the job `d/a.enc.enc` fails in writing
its output `d/a.enc` and leaves that file truncated, and the job `d/a.enc`
after it is then too short; run without the failed job, `d/a.enc` succeeds.
In `scarceWorld`, in mode "encrypt", the job `in/x` draws the one nonce there
is and fails in writing, and the job `in/a.txt` after it gets no nonce; run
without the failed job, `in/a.txt` succeeds. -/
theorem failed_job_changes_later_result :
    ((worker ["d/a.enc.enc", "d/a.enc"] exampleKey "d" "d" "decrypt" tornWorld).1 =
        [some (.writeDecrypted "d/a.enc" "write d/a.enc: no space left on device"),
          some (.tooShort "d/a.enc")] ∧
      (worker ["d/a.enc"] exampleKey "d" "d" "decrypt" tornWorld).1 = [none]) ∧
    ((worker ["in/x", "in/a.txt"] exampleKey "in" "out" "encrypt" scarceWorld).1 =
        [some (.writeEncrypted "out/x.enc" "open out/x.enc: permission denied"),
          some (.nonce "in/a.txt" "EOF")] ∧
      (worker ["in/a.txt"] exampleKey "in" "out" "encrypt" scarceWorld).1 = [none]) := by
  decide

/-- The isolation of the amended C5 on two files to decrypt: `in/a` fails, and
`in/t.enc` after it has the result it has without that failure. -/
theorem worker_failure_isolation_witness :
    (runJob exampleKey "in" "out" "decrypt" "in/a"
      (worldBefore ["in/a", "in/t.enc"] exampleKey "in" "out" "decrypt" decryptWorld 0)).1 ≠
      none ∧
    (worker ["in/t.enc"] exampleKey "in" "out" "decrypt"
        (runJob exampleKey "in" "out" "decrypt" "in/a"
          (worldBefore ["in/a", "in/t.enc"] exampleKey "in" "out" "decrypt"
            decryptWorld 0)).2).1 =
      (worker ["in/t.enc"] exampleKey "in" "out" "decrypt"
        ((worldBefore ["in/a", "in/t.enc"] exampleKey "in" "out" "decrypt"
            decryptWorld 0).withEntropy
          (runJob exampleKey "in" "out" "decrypt" "in/a"
            (worldBefore ["in/a", "in/t.enc"] exampleKey "in" "out" "decrypt"
              decryptWorld 0)).2.entropy)).1 :=
  ⟨by decide,
    (((worker_failure_isolation ["in/a", "in/t.enc"] exampleKey "in" "out" "decrypt"
      decryptWorld).2 0 (by decide)).2.2.2.2.2 (by decide)).1⟩

/-- C6 fails as stated, on three runs.  In `staleWorld`, in mode "decrypt",
the task of `in/a` fails, and its output path `out/a` exists after the run
since it existed before.  In `decryptWorld` the output directory is empty, the
task of `in/a` fails and the task of `in/a.enc` succeeds; both have the output
path `out/a`, which exists after the run.  In `fullDiskWorld`, in mode
"encrypt", the output directory is empty and the only task fails in writing
its output, after the file was opened: the output path exists after the
run. -/
theorem output_exists_without_success :
    ((worker ["in/a"] exampleKey "in" "out" "decrypt" staleWorld).1 =
        [some (.tooShort "in/a")] ∧
      ((worker ["in/a"] exampleKey "in" "out" "decrypt" staleWorld).2.files
        (outputPath "decrypt" "out" "in/a")).isSome = true) ∧
    ((worker ["in/a", "in/a.enc"] exampleKey "in" "out" "decrypt" decryptWorld).1 =
        [some (.tooShort "in/a"), none] ∧
      decryptWorld.files (outputPath "decrypt" "out" "in/a") = none ∧
      ((worker ["in/a", "in/a.enc"] exampleKey "in" "out" "decrypt" decryptWorld).2.files
        (outputPath "decrypt" "out" "in/a")).isSome = true) ∧
    ((worker ["in/a.txt"] exampleKey "in" "out" "encrypt" fullDiskWorld).1 =
        [some (.writeEncrypted "out/a.txt.enc"
          "write out/a.txt.enc: no space left on device")] ∧
      fullDiskWorld.files (outputPath "encrypt" "out" "in/a.txt") = none ∧
      ((worker ["in/a.txt"] exampleKey "in" "out" "encrypt" fullDiskWorld).2.files
        (outputPath "encrypt" "out" "in/a.txt")).isSome = true) := by
  decide

/-- The equivalence of the amended C6 for the first of two files with
distinct output paths in an empty output directory where every write
completes. -/
theorem output_exists_iff_success_witness :
    0 < ["in/a.enc", "in/t.enc"].length ∧
    decryptWorld.files (outputPath "decrypt" "out" "in/a.enc") = none ∧
    outputPath "decrypt" "out" "in/t.enc" ≠ outputPath "decrypt" "out" "in/a.enc" ∧
    decryptWorld.writable (outputPath "decrypt" "out" "in/a.enc") = true ∧
    (((worker ["in/a.enc", "in/t.enc"] exampleKey "in" "out" "decrypt" decryptWorld).2.files
        (outputPath "decrypt" "out" "in/a.enc")).isSome = true ↔
      (worker ["in/a.enc", "in/t.enc"] exampleKey "in" "out" "decrypt" decryptWorld).1[0]? =
        some none) := by
  have hne : outputPath "decrypt" "out" "in/t.enc" ≠ outputPath "decrypt" "out" "in/a.enc" := by
    decide
  refine ⟨by decide, by decide, hne, rfl, ?_⟩
  exact (output_exists_iff_success ["in/a.enc", "in/t.enc"] exampleKey "in" "out" "decrypt"
    decryptWorld 0 (by decide)).2 (by decide) (by
      intro j hj hj0
      have hj1 : j = 1 := by
        simp at hj
        omega
      subst hj1
      exact hne) (fun _ => rfl)

/-- C10 fails as stated, on two input sets.  In `inPlaceWorld`, in mode
"decrypt" with the directory `d` read and written, the two orders of the jobs
`d/a` and `d/a.enc` give different results: both write `d/a`, and when
`d/a.enc` comes first, `d/a` holds a plaintext by the time its own job reads
it.  In `scarceWorld`, in mode "encrypt", the random source has one nonce
for two jobs: the job that comes second gets none. -/
theorem order_changes_results :
    ((worker ["d/a", "d/a.enc"] exampleKey "d" "d" "decrypt" inPlaceWorld).1 = [none, none] ∧
      (worker ["d/a.enc", "d/a"] exampleKey "d" "d" "decrypt" inPlaceWorld).1 =
        [none, some (.tooShort "d/a")]) ∧
    ((worker ["in/x", "in/a.txt"] exampleKey "in" "out" "encrypt" scarceWorld).1 =
        [some (.writeEncrypted "out/x.enc" "open out/x.enc: permission denied"),
          some (.nonce "in/a.txt" "EOF")] ∧
      (worker ["in/a.txt", "in/x"] exampleKey "in" "out" "encrypt" scarceWorld).1 =
        [none, some (.nonce "in/x" "EOF")]) := by
  decide

/-- The independence of the amended C10 on two files to decrypt into another
directory, in their two orders. -/
theorem pool_order_independence_witness :
    (worker ["in/a", "in/t.enc"] exampleKey "in" "out" "decrypt" decryptWorld).1 =
      ["in/a", "in/t.enc"].map
        (fun a => (runJob exampleKey "in" "out" "decrypt" a decryptWorld).1) ∧
    (worker ["in/t.enc", "in/a"] exampleKey "in" "out" "decrypt" decryptWorld).1 =
      ["in/t.enc", "in/a"].map
        (fun a => (runJob exampleKey "in" "out" "decrypt" a decryptWorld).1) ∧
    ∀ q, ((worker ["in/a", "in/t.enc"] exampleKey "in" "out" "decrypt"
        decryptWorld).2.files q).isSome =
      ((worker ["in/t.enc", "in/a"] exampleKey "in" "out" "decrypt"
        decryptWorld).2.files q).isSome :=
  (pool_order_independence ["in/a", "in/t.enc"] ["in/t.enc", "in/a"] exampleKey "in" "out"
    "decrypt" decryptWorld).1 (List.Perm.swap "in/t.enc" "in/a" []) (by decide) (by decide)
    (fun h => absurd h (by decide))

/-- The invalid mode of C8 on two jobs. -/
theorem worker_invalid_mode_witness :
    "zip" ≠ "encrypt" ∧ "zip" ≠ "decrypt" ∧
    worker ["in/a.txt", "in/b"] exampleKey "in" "out" "zip" exampleWorld =
      ([some (.invalidMode "zip"), some (.invalidMode "zip")], exampleWorld) :=
  ⟨by decide, by decide,
    worker_invalid_mode ["in/a.txt", "in/b"] exampleKey "in" "out" "zip" exampleWorld
      (by decide) (by decide)⟩

/-- C9 fails as stated, on two inputs.  The empty key decodes without error
to zero bytes, not 32, and `main` prints the usage text, not the invalid-key
message.  With an empty input directory and a key that decodes to 32 bytes,
`main` prints the usage text and does not list any directory. -/
theorem main_checks_arguments_first :
    ((hex.DecodeString "").2 = none ∧ (hex.DecodeString "").1.length ≠ 32 ∧
      (main "in" "out" "" "encrypt" exampleWorld).trace = [Event.stdout usage] ∧
      (main "in" "out" "" "encrypt" exampleWorld).trace ≠
        (exampleWorld.print invalidKeyMessage).trace) ∧
    ((hex.DecodeString exampleHexKey).2 = none ∧
      (hex.DecodeString exampleHexKey).1.length = 32 ∧
      (main "" "out" exampleHexKey "encrypt" exampleWorld).trace = [Event.stdout usage]) := by
  decide

/-- The validation of the amended C9 on the key of 64 zero digits. -/
theorem main_key_validation_witness :
    "in" ≠ "" ∧ "out" ≠ "" ∧ exampleHexKey ≠ "" ∧
    ((hex.DecodeString exampleHexKey).2 = none ∧
      (hex.DecodeString exampleHexKey).1.length = 32) ∧
    ∃ rest, (main "in" "out" exampleHexKey "encrypt" exampleWorld).trace =
      exampleWorld.trace ++ Event.glob (filepath.Join ["in", "*"]) :: rest :=
  have hv : (hex.DecodeString exampleHexKey).2 = none ∧
      (hex.DecodeString exampleHexKey).1.length = 32 := by decide
  ⟨by decide, by decide, by decide, hv,
    (main_key_validation "in" "out" exampleHexKey "encrypt" exampleWorld (by decide) (by decide)
      (by decide)).1.mpr hv⟩

end PFE
